import Mathlib

/-!
Shallow embedding of the exchange-rs limit order book matching engine.

The Rust sources are embedded as executable Lean definitions:

* decimal amounts (rust_decimal wrappers Price, Quantity, Notional) are
  modelled as rationals, following the specification's stance that the
  decimal arithmetic is an opaque exact arithmetic with a zero;
* fallible operations return Except / Option; a Rust panic (an .expect or
  an assert failure) is modelled by a dedicated result constructor;
* the order and trade state machines follow
  exchange-types/src/order.rs, order/limit.rs and trade.rs;
* the order book follows exchange-algo/src/standard/orderbook
  (BTreeMap of price levels as a sorted association list, VecDeque of
  order ids as a list, front at the head);
* the matching loop follows exchange-algo/src/standard/mod.rs; the
  fill-or-kill sufficiency test follows the funds-aware revision in
  matching-engine/matching-engine-algo/src/policy/fill_or_kill.rs, the
  only revision that is type-correct against the Either-valued
  Asset::remaining of exchange-core/src/asset.rs;
* the runtime follows exchange-rt/src/runtime.rs.
-/

namespace ExchangeRs

/-- Decimal price (rust_decimal wrapper), modelled as an exact rational. -/
abbrev Price := ℚ

/-- Decimal quantity (rust_decimal wrapper), modelled as an exact rational. -/
abbrev Quantity := ℚ

/-- Decimal notional (rust_decimal wrapper), modelled as an exact rational. -/
abbrev Notional := ℚ

/-- 128-bit order identifier (uuid), modelled as a natural number. -/
abbrev OrderId := ℕ

/-- either::Either, as used by Asset::remaining. -/
inductive Either (α β : Type) where
  | left (val : α)
  | right (val : β)
deriving DecidableEq, Repr

/-- exchange-types/src/order_side.rs: OrderSide. -/
inductive OrderSide where
  | ask
  | bid
deriving DecidableEq, Repr

/-- exchange-core Opposite for OrderSide. -/
def OrderSide.opposite : OrderSide → OrderSide
  | .ask => .bid
  | .bid => .ask

/-- exchange-types/src/order_status.rs: OrderStatus.
The Rust variants Open and Partial are rendered opened and
partiallyFilled because both Rust names collide with Lean keywords. -/
inductive OrderStatus where
  | opened
  | partiallyFilled
  | cancelled
  | closed
  | completed
deriving DecidableEq, Repr

/-- order_type.rs: ByBase { quantity, filled }. -/
structure ByBase where
  quantity : Quantity
  filled : Quantity
deriving DecidableEq, Repr

/-- order_type.rs: ByFunds { funds, filled }. -/
structure ByFunds where
  funds : Notional
  filled : Notional
deriving DecidableEq, Repr

/-- order_type.rs: PricedBy = Base(ByBase) | Funds(ByFunds). -/
inductive PricedBy where
  | base (val : ByBase)
  | funds (val : ByFunds)
deriving DecidableEq, Repr

/-- order_type.rs: TimeInForce. -/
inductive TimeInForce where
  | goodTillCancel (postOnly : Bool)
  | immediateOrCancel (allOrNone : Bool)
deriving DecidableEq, Repr

/-- order_type.rs: OrderType. Limit orders are always base-priced;
market orders are base- or funds-priced. -/
inductive OrderType where
  | limit (limitPrice : Price) (timeInForce : TimeInForce) (pricedBy : ByBase)
  | market (allOrNone : Bool) (pricedBy : PricedBy)
deriving DecidableEq, Repr

/-- exchange-types/src/order.rs: Order (the incoming order). -/
structure Order where
  id : OrderId
  side : OrderSide
  type_ : OrderType
  status : OrderStatus
deriving DecidableEq, Repr

/-- exchange-types/src/order/limit.rs: LimitOrder (the resting order). -/
structure LimitOrder where
  id : OrderId
  side : OrderSide
  unitPrice : Price
  postOnly : Bool
  quantity : Quantity
  filled : Quantity
  status : OrderStatus
deriving DecidableEq, Repr

/-- error.rs: OrderError (conversion variant omitted as unused here). -/
inductive OrderError where
  | noFill
  | overfill
deriving DecidableEq, Repr

/-- error.rs: TradeError, flattening the nested Price/Side/Status errors
exactly as limit.rs raises them. -/
inductive TradeError where
  | sameSide
  | incompatible
  | closed
deriving DecidableEq, Repr

/-- error.rs: ConversionError. -/
inductive ConversionError where
  | incompatible
deriving DecidableEq, Repr

/-- Order::new: status starts Open. -/
def Order.new (id : OrderId) (side : OrderSide) (type_ : OrderType) : Order :=
  ⟨id, side, type_, .opened⟩

/-- Asset::limit_price for Order. -/
def Order.limitPrice (o : Order) : Option Price :=
  match o.type_ with
  | .limit p _ _ => some p
  | .market _ _ => none

/-- Asset::remaining for Order: Left funds-notional for funds-priced
markets, Right quantity otherwise. -/
def Order.remaining (o : Order) : Either Notional Quantity :=
  match o.type_ with
  | .limit _ _ pb => .right (pb.quantity - pb.filled)
  | .market _ (.base pb) => .right (pb.quantity - pb.filled)
  | .market _ (.funds pf) => .left (pf.funds - pf.filled)

/-- Asset::is_closed for Order. -/
def Order.isClosed (o : Order) : Bool :=
  match o.status with
  | .cancelled | .closed | .completed => true
  | _ => false

/-- Asset::is_open for Order. -/
def Order.isOpen (o : Order) : Bool := !o.isClosed

/-- Asset::is_fill_or_kill for Order. -/
def Order.isFillOrKill (o : Order) : Bool :=
  match o.type_ with
  | .market allOrNone _ => allOrNone
  | .limit _ (.immediateOrCancel allOrNone) _ => allOrNone
  | _ => false

/-- Asset::is_immediate_or_cancel for Order. -/
def Order.isImmediateOrCancel (o : Order) : Bool :=
  match o.type_ with
  | .limit _ (.immediateOrCancel _) _ => true
  | .market _ _ => true
  | _ => false

/-- Asset::is_post_only for Order. -/
def Order.isPostOnly (o : Order) : Bool :=
  match o.type_ with
  | .limit _ (.goodTillCancel postOnly) _ => postOnly
  | _ => false

/-- Asset::cancel for Order: Open becomes Cancelled, Partial becomes
Closed, anything else is untouched. -/
def Order.cancel (o : Order) : Order :=
  match o.status with
  | .opened => { o with status := .cancelled }
  | .partiallyFilled => { o with status := .closed }
  | _ => o

/-- True when Asset::remaining of the order is zero. -/
def Order.remainingIsZero (o : Order) : Bool :=
  match o.remaining with
  | .left notional => notional = 0
  | .right quantity => quantity = 0

/-- Order::fill_unchecked: advance filled (by quantity, or by
quantity × price for funds-priced markets) and recompute the status. -/
def Order.fillUnchecked (o : Order) (quantity : Quantity) (price : Price) :
    Order :=
  let type' : OrderType :=
    match o.type_ with
    | .limit lp tif pb => .limit lp tif ⟨pb.quantity, pb.filled + quantity⟩
    | .market aon (.base pb) =>
        .market aon (.base ⟨pb.quantity, pb.filled + quantity⟩)
    | .market aon (.funds pf) =>
        .market aon (.funds ⟨pf.funds, pf.filled + quantity * price⟩)
  let o' : Order := { o with type_ := type' }
  { o' with
    status := if o'.remainingIsZero then .completed else .partiallyFilled }

/-- Order::try_fill. -/
def Order.tryFill (o : Order) (quantity : Quantity) (price : Price) :
    Except OrderError Order :=
  if quantity = 0 then .error .noFill
  else
    match o.remaining with
    | .left notional =>
        if quantity * price > notional then .error .overfill
        else .ok (o.fillUnchecked quantity price)
    | .right remaining =>
        if quantity > remaining then .error .overfill
        else .ok (o.fillUnchecked quantity price)

/-- Order::fill: panics (None) when try_fill fails. -/
def Order.fill (o : Order) (quantity : Quantity) (price : Price) :
    Option Order :=
  (o.tryFill quantity price).toOption

/-- LimitOrder::remaining. -/
def LimitOrder.remaining (o : LimitOrder) : Quantity := o.quantity - o.filled

/-- Asset::limit_price for LimitOrder: always present. -/
def LimitOrder.limitPrice (o : LimitOrder) : Option Price := some o.unitPrice

/-- Asset::is_closed for LimitOrder. -/
def LimitOrder.isClosed (o : LimitOrder) : Bool :=
  match o.status with
  | .cancelled | .closed | .completed => true
  | _ => false

/-- Asset::is_open for LimitOrder. -/
def LimitOrder.isOpen (o : LimitOrder) : Bool := !o.isClosed

/-- Asset::cancel for LimitOrder. -/
def LimitOrder.cancel (o : LimitOrder) : LimitOrder :=
  match o.status with
  | .opened => { o with status := .cancelled }
  | .partiallyFilled => { o with status := .closed }
  | _ => o

/-- LimitOrder::fill_unchecked. -/
def LimitOrder.fillUnchecked (o : LimitOrder) (quantity : Quantity) :
    LimitOrder :=
  let o' : LimitOrder := { o with filled := o.filled + quantity }
  { o' with
    status := if o'.remaining = 0 then .completed else .partiallyFilled }

/-- LimitOrder::try_fill. -/
def LimitOrder.tryFill (o : LimitOrder) (quantity : Quantity) :
    Except OrderError LimitOrder :=
  if quantity = 0 then .error .noFill
  else if quantity > o.remaining then .error .overfill
  else .ok (o.fillUnchecked quantity)

/-- LimitOrder::fill: panics (None) when try_fill fails. -/
def LimitOrder.fill (o : LimitOrder) (quantity : Quantity) :
    Option LimitOrder :=
  (o.tryFill quantity).toOption

/-- Trade::matches in limit.rs: a maker matches a taker iff neither is
closed, the sides differ, and (when the taker carries a limit price)
the bid price is at least the ask price. -/
def LimitOrder.matches (maker : LimitOrder) (taker : Order) :
    Except TradeError Unit :=
  if taker.isClosed || maker.isClosed then .error .closed
  else
    let makerLimitPrice := maker.unitPrice
    match taker.limitPrice with
    | none => .ok ()
    | some takerLimitPrice =>
      match taker.side, maker.side with
      | .ask, .bid =>
          if makerLimitPrice ≥ takerLimitPrice then .ok ()
          else .error .incompatible
      | .bid, .ask =>
          if takerLimitPrice ≥ makerLimitPrice then .ok ()
          else .error .incompatible
      | _, _ => .error .sameSide

/-- exchange-types/src/trade.rs: Trade. -/
structure Trade where
  taker : OrderId
  maker : OrderId
  quantity : Quantity
  price : Price
  notional : Notional
deriving DecidableEq, Repr

/-- Result of Trade::try_new: an error, a panic (a failed .expect inside
maker.fill or taker.fill), or the trade together with the updated maker
and taker. -/
inductive TradeResult where
  | err (e : TradeError)
  | panic
  | ok (trade : Trade) (maker : LimitOrder) (taker : Order)
deriving DecidableEq, Repr

/-- The exchangeable quantity computed inside Trade::try_new:
min(taker-remaining-in-quantity, maker.remaining), with funds-priced
takers converted through funds / maker price. -/
def exchangedQuantity (maker : LimitOrder) (taker : Order) : Quantity :=
  min
    (match taker.remaining with
      | .left funds => funds / maker.unitPrice
      | .right quantity => quantity)
    maker.remaining

/-- Trade::try_new from exchange-types/src/trade.rs. -/
def Trade.tryNew (maker : LimitOrder) (taker : Order) : TradeResult :=
  match maker.matches taker with
  | .error e => .err e
  | .ok _ =>
    let price := maker.unitPrice
    let exchanged := exchangedQuantity maker taker
    match maker.fill exchanged, taker.fill exchanged price with
    | some maker', some taker' =>
        .ok ⟨taker.id, maker.id, exchanged, price, exchanged * price⟩
          maker' taker'
    | _, _ => .panic

/-- From&lt;LimitOrder&gt; for Order in limit.rs. -/
def LimitOrder.toOrder (order : LimitOrder) : Order :=
  { id := order.id
    side := order.side
    type_ := .limit order.unitPrice (.goodTillCancel order.postOnly)
      ⟨order.quantity, order.filled⟩
    status := order.status }

/-- TryFrom&lt;Order&gt; for LimitOrder in limit.rs: succeeds exactly on
GoodTillCancel limit orders, for any status. -/
def LimitOrder.tryFrom (order : Order) : Except ConversionError LimitOrder :=
  match order.type_ with
  | .limit limitPrice (.goodTillCancel postOnly) pricedBy =>
      .ok
        { id := order.id
          side := order.side
          unitPrice := limitPrice
          postOnly := postOnly
          quantity := pricedBy.quantity
          filled := pricedBy.filled
          status := order.status }
  | _ => .error .incompatible

/-- One price level: a VecDeque of order ids, front at the list head. -/
abbrev Level := List OrderId

/-- A BTreeMap from Price to a Level, embedded as an association list
whose keys are kept strictly ascending. -/
abbrev PriceMap := List (Price × Level)

/-- BTreeMap lookup of a level, with the empty queue as default. -/
def PriceMap.levelAt (m : PriceMap) (p : Price) : Level :=
  (((m.find? (fun e => e.1 = p)).map (fun e => e.2)).getD [])

/-- Orderbook::insert on one side map:
entry(price).or_default().push_back(id). -/
def PriceMap.push (m : PriceMap) (p : Price) (oid : OrderId) : PriceMap :=
  match m with
  | [] => [(p, [oid])]
  | (q, l) :: rest =>
    if p < q then (p, [oid]) :: (q, l) :: rest
    else if p = q then (q, l ++ [oid]) :: rest
    else (q, l) :: PriceMap.push rest p oid

/-- The level-removal part of Orderbook::remove. A singleton level is
removed whole; otherwise the first occurrence of the id is removed by
position. None models the panics (vacant entry, or id absent from the
level). -/
def PriceMap.removeId (m : PriceMap) (p : Price) (oid : OrderId) :
    Option PriceMap :=
  match m with
  | [] => none
  | (q, l) :: rest =>
    if p = q then
      if l.length = 1 then some rest
      else
        match l.indexOf? oid with
        | none => none
        | some i => some ((q, l.eraseIdx i) :: rest)
    else
      (PriceMap.removeId rest p oid).map (fun m' => (q, l) :: m')

/-- exchange-algo standard orderbook index: OrdersBySide, one price map
per side. -/
structure OrdersBySide where
  ask : PriceMap
  bid : PriceMap
deriving DecidableEq, Repr

/-- Index&lt;OrderSide&gt; for OrdersBySide. -/
def OrdersBySide.side (s : OrdersBySide) : OrderSide → PriceMap
  | .ask => s.ask
  | .bid => s.bid

/-- Functional update of one side map. -/
def OrdersBySide.setSide (s : OrdersBySide) :
    OrderSide → PriceMap → OrdersBySide
  | .ask, m => { s with ask := m }
  | .bid, m => { s with bid := m }

/-- OrdersBySide::iter: asks in ascending price order, bids in
descending price order (values().rev()), FIFO inside each level. -/
def OrdersBySide.iter (s : OrdersBySide) : OrderSide → List OrderId
  | .ask => (s.ask.map (fun e => e.2)).flatten
  | .bid => (s.bid.reverse.map (fun e => e.2)).flatten

/-- OrdersBySide::peek: the first id yielded by iter. -/
def OrdersBySide.peek (s : OrdersBySide) (side : OrderSide) :
    Option OrderId :=
  (s.iter side).head?

/-- OrdersById, a BTreeMap from OrderId to the owned LimitOrder,
embedded as an association list (iteration order plays no role here). -/
abbrev OrdersById := List (OrderId × LimitOrder)

/-- OrdersById::get. -/
def OrdersById.get (m : OrdersById) (oid : OrderId) : Option LimitOrder :=
  ((m.find? (fun e => e.1 = oid)).map (fun e => e.2))

/-- OrdersById::insert (BTreeMap insert replaces an existing entry). -/
def OrdersById.insert (m : OrdersById) (oid : OrderId) (o : LimitOrder) :
    OrdersById :=
  (m.filter (fun e => !(e.1 = oid : Bool))) ++ [(oid, o)]

/-- OrdersById::remove: delete the entry, returning nothing when the id
is absent. -/
def OrdersById.remove (m : OrdersById) (oid : OrderId) :
    Option (LimitOrder × OrdersById) :=
  match OrdersById.get m oid with
  | none => none
  | some o => some (o, m.filter (fun e => !(e.1 = oid : Bool)))

/-- exchange-algo/src/standard/orderbook/mod.rs: Orderbook, composing
the id index and the two-sided price index. -/
structure Orderbook where
  ordersById : OrdersById
  ordersBySide : OrdersBySide
deriving DecidableEq, Repr

/-- Orderbook::new. -/
def Orderbook.new : Orderbook := ⟨[], ⟨[], []⟩⟩

/-- Orderbook::insert: push the id at the FIFO tail of its price level
and store the order in the id index. The caller contract (the order
does not cross the book, its id is fresh) is not checked, as in the
source (an unsafe fn). -/
def Orderbook.insert (ob : Orderbook) (o : LimitOrder) : Orderbook :=
  { ordersById := OrdersById.insert ob.ordersById o.id o
    ordersBySide :=
      ob.ordersBySide.setSide o.side
        (PriceMap.push (ob.ordersBySide.side o.side) o.unitPrice o.id) }

/-- Orderbook::remove. The outer Option models the panics
(unreachable vacant level, or an indexed order missing from the tree);
the inner Option is the source's return value. -/
def Orderbook.remove (ob : Orderbook) (oid : OrderId) :
    Option (Option LimitOrder × Orderbook) :=
  match OrdersById.remove ob.ordersById oid with
  | none => some (none, ob)
  | some (order, byId') =>
    match
      PriceMap.removeId (ob.ordersBySide.side order.side) order.unitPrice
        order.id
    with
    | none => none
    | some m' =>
      some (some order,
        { ordersById := byId'
          ordersBySide := ob.ordersBySide.setSide order.side m' })

/-- Orderbook::peek: resolve the best id of the side through the id
index. The outer Option models the index-desync panic; the inner Option
is the empty-side case. -/
def Orderbook.peek (ob : Orderbook) (side : OrderSide) :
    Option (Option LimitOrder) :=
  match ob.ordersBySide.peek side with
  | none => some none
  | some oid =>
    match OrdersById.get ob.ordersById oid with
    | none => none
    | some o => some (some o)

/-- Orderbook::iter resolved through the id index. Ids that fail to
resolve would panic in the source; they are skipped here and are ruled
out by the book invariant wherever this definition is used. -/
def Orderbook.iterOrders (ob : Orderbook) (side : OrderSide) :
    List LimitOrder :=
  (ob.ordersBySide.iter side).filterMap (fun oid =>
    OrdersById.get ob.ordersById oid)

/-- Result of Orderbook::pop. -/
inductive PopResult where
  | empty
  | panic
  | ok (order : LimitOrder) (book : Orderbook)
deriving DecidableEq, Repr

/-- Orderbook::pop: take the best level of the side (first for asks,
last for bids), pop its front id (removing the level when it becomes
empty) and remove the order from the id index. -/
def Orderbook.pop (ob : Orderbook) (side : OrderSide) : PopResult :=
  let m := ob.ordersBySide.side side
  let entry? : Option (Price × Level) :=
    match side with
    | .ask => m.head?
    | .bid => m.getLast?
  match entry? with
  | none => .empty
  | some (p, l) =>
    match l with
    | [] => .panic
    | oid :: tail =>
      let m' : PriceMap :=
        if l.length = 1 then m.filter (fun e => !(e.1 = p : Bool))
        else m.map (fun e => if e.1 = p then (p, tail) else e)
      match OrdersById.remove ob.ordersById oid with
      | none => .panic
      | some (order, byId') =>
        .ok order
          { ordersById := byId'
            ordersBySide := ob.ordersBySide.setSide side m' }

/-- The mutation performed through a peek_mut handle: the stored maker
is updated in place in the id index. -/
def Orderbook.writeBack (ob : Orderbook) (o : LimitOrder) : Orderbook :=
  { ob with
    ordersById :=
      ob.ordersById.map (fun e => if e.1 = o.id then (o.id, o) else e) }

/-- The funds-priced arm of FillOrKill::can_fill: a try_fold over
(limit price, available quantity) pairs, subtracting
min(price × quantity, remaining) and breaking once the running
remaining notional reaches zero. Returns is_break. -/
def canFillFoldFunds : Notional → List (Price × Quantity) → Bool
  | _, [] => false
  | remaining, (price, qty) :: rest =>
    let available := price * qty
    let remaining' := remaining - min available remaining
    if remaining' = 0 then true else canFillFoldFunds remaining' rest

/-- The quantity-priced arm of FillOrKill::can_fill: same fold, with the
plain available quantity. -/
def canFillFoldQty : Quantity → List (Price × Quantity) → Bool
  | _, [] => false
  | remaining, (_, qty) :: rest =>
    let remaining' := remaining - min qty remaining
    if remaining' = 0 then true else canFillFoldQty remaining' rest

/-- The (price, available quantity) pairs that FillOrKill::can_fill
walks: the opposite side in priority order, cut at the first maker that
does not match the taker. -/
def canFillEntries (taker : Order) (ob : Orderbook) :
    List (Price × Quantity) :=
  ((ob.iterOrders taker.side.opposite).takeWhile (fun m =>
      (m.matches taker).toBool)).map (fun m => (m.unitPrice, m.remaining))

/-- FillOrKill::can_fill
(matching-engine-algo/src/policy/fill_or_kill.rs): short-circuiting
sufficiency test of the opposite-side crossing liquidity. -/
def FillOrKill.canFill (taker : Order) (ob : Orderbook) : Bool :=
  match taker.remaining with
  | .left funds => canFillFoldFunds funds (canFillEntries taker ob)
  | .right qty => canFillFoldQty qty (canFillEntries taker ob)

/-- FillOrKill::enforce: cancel a fill-or-kill taker that cannot be
fully filled. -/
def FillOrKill.enforce (taker : Order) (ob : Orderbook) : Order :=
  if taker.isFillOrKill && !(FillOrKill.canFill taker ob) then taker.cancel
  else taker

/-- PostOnly::enforce
(exchange-algo/src/standard/policy/post_only.rs): cancel a post-only
taker whenever the opposite best maker matches it. The best maker is
read through iterOrders, which agrees with Orderbook::peek on any book
satisfying the invariant. -/
def PostOnly.enforce (taker : Order) (ob : Orderbook) : Order :=
  if taker.isPostOnly &&
      (match (ob.iterOrders taker.side.opposite).head? with
        | some top => (top.matches taker).toBool
        | none => false) then
    taker.cancel
  else taker

/-- ImmediateOrCancel::enforce: cancel an IOC taker after matching. -/
def ImmediateOrCancel.enforce (taker : Order) : Order :=
  if taker.isImmediateOrCancel then taker.cancel else taker

/-- Result of the matching loop and of MatchingAlgo::matching: the
emitted trades with the final book and taker, a panic, or fuel
exhaustion (never reached from matching, whose fuel bounds the loop
iterations). -/
inductive MatchResult where
  | panic
  | fuelOut
  | ok (trades : List Trade) (book : Orderbook) (taker : Order)
deriving DecidableEq, Repr

/-- The while-loop of MatchingAlgo::matching
(exchange-algo/src/standard/mod.rs): while the taker is open, trade it
against the opposite best maker, removing the maker once it closes;
stop when no maker remains or the trade attempt errors. -/
def matchLoop : ℕ → Orderbook → Order → List Trade → MatchResult
  | 0, _, _, _ => .fuelOut
  | fuel + 1, ob, taker, trades =>
    if taker.isClosed then .ok trades ob taker
    else
      match ob.peek taker.side.opposite with
      | none => .panic
      | some none => .ok trades ob taker
      | some (some maker) =>
        match Trade.tryNew maker taker with
        | .err _ => .ok trades ob taker
        | .panic => .panic
        | .ok trade maker' taker' =>
          let ob' := ob.writeBack maker'
          if maker'.isClosed then
            match ob'.remove maker'.id with
            | some (some _, ob'') =>
                matchLoop fuel ob'' taker' (trades ++ [trade])
            | some (none, _) => .panic
            | none => .panic
          else matchLoop fuel ob' taker' (trades ++ [trade])

/-- MatchingAlgo::matching (exchange-algo/src/standard/mod.rs): apply
the before-policies [FillOrKill, PostOnly], run the matching loop,
apply the late policy [ImmediateOrCancel], then insert the residual
whenever it converts to a LimitOrder. This revision inserts on
conversion success alone; its own comment asks additionally for the
taker to be open, and the matching-engine-algo revision of the same
function checks is_open() before converting. -/
def MatchingAlgo.matching (ob : Orderbook) (taker : Order) : MatchResult :=
  let taker₁ := FillOrKill.enforce taker ob
  let taker₂ := PostOnly.enforce taker₁ ob
  match matchLoop (ob.ordersById.length + 2) ob taker₂ [] with
  | .ok trades ob' taker₃ =>
    let taker₄ := ImmediateOrCancel.enforce taker₃
    match LimitOrder.tryFrom taker₄ with
    | .ok order => .ok trades (ob'.insert order) taker₄
    | .error _ => .ok trades ob' taker₄
  | r => r

/-- exchange-rt/src/request.rs: Request. -/
inductive Request where
  | create (pair : String) (order : Order)
  | delete (orderId : OrderId)
deriving DecidableEq, Repr

/-- exchange-rt PairError. -/
inductive PairError where
  | mismatch (expected found : String)
deriving DecidableEq, Repr

/-- exchange-rt/src/runtime.rs: the Runtime state visible to process:
the configured pair, the book, and the processed counter. -/
structure Runtime where
  pair : String
  orderbook : Orderbook
  processed : ℕ
deriving DecidableEq, Repr

/-- Runtime::process: reject a Create whose pair differs from the
configured one with PairError::Mismatch before touching the book;
otherwise run matching (Create) or Orderbook::remove (Delete) and bump
the processed counter. The outer Option models panics escaping
matching or remove. -/
def Runtime.process (rt : Runtime) (req : Request) :
    Option (Except PairError Runtime) :=
  match req with
  | .create pair order =>
    if pair ≠ rt.pair then
      some (.error (.mismatch rt.pair pair))
    else
      match MatchingAlgo.matching rt.orderbook order with
      | .ok _ ob' _ =>
          some (.ok { rt with orderbook := ob', processed := rt.processed + 1 })
      | _ => none
  | .delete orderId =>
    match rt.orderbook.remove orderId with
    | some (_, ob') =>
        some (.ok { rt with orderbook := ob', processed := rt.processed + 1 })
    | none => none

/-- The engine loop of Runtime::run: drain the queued requests in
order; the question-mark operator propagates the first process error,
ending the run. -/
def Runtime.run (rt : Runtime) : List Request → Option (Except PairError Runtime)
  | [] => some (.ok rt)
  | req :: rest =>
    match rt.process req with
    | none => none
    | some (.error e) => some (.error e)
    | some (.ok rt') => rt'.run rest

/-! Specification-level predicates used to state the claims. -/

/-- The filled amount recorded inside an order (a quantity for
base-priced orders, a notional for funds-priced markets). -/
def Order.filledAmount (o : Order) : ℚ :=
  match o.type_ with
  | .limit _ _ pb => pb.filled
  | .market _ (.base pb) => pb.filled
  | .market _ (.funds pf) => pf.filled

/-- True when the order is a funds-priced market order. -/
def Order.isFundsPriced (o : Order) : Bool :=
  match o.type_ with
  | .market _ (.funds _) => true
  | _ => false

/-- True when the order type is a GoodTillCancel limit. -/
def Order.isLimitGtc (o : Order) : Bool :=
  match o.type_ with
  | .limit _ (.goodTillCancel _) _ => true
  | _ => false

/-- The remaining amount of a taker as a single scalar (notional for
funds-priced markets, quantity otherwise). -/
def Order.remainingAmount (o : Order) : ℚ :=
  match o.remaining with
  | .left funds => funds
  | .right quantity => quantity

/-- The size a resting level entry contributes to the fill-or-kill
sufficiency test: price × quantity for funds-priced takers, the plain
quantity otherwise. -/
def availSize (taker : Order) (e : Price × Quantity) : ℚ :=
  if taker.isFundsPriced then e.1 * e.2 else e.2

/-- The specification's fill-or-kill sufficiency condition: the
crossing prefix of the opposite side, walked in priority order, holds
at least the taker's remaining amount. -/
def sufficientLiquidity (taker : Order) (ob : Orderbook) : Prop :=
  taker.remainingAmount ≤
    ((canFillEntries taker ob).map (availSize taker)).sum

/-- All ids stored in a price map, in level order. -/
def PriceMap.ids (m : PriceMap) : List OrderId :=
  (m.map (fun e => e.2)).flatten

/-- All ids resting in the side index, asks then bids. -/
def Orderbook.allIds (ob : Orderbook) : List OrderId :=
  PriceMap.ids ob.ordersBySide.ask ++ PriceMap.ids ob.ordersBySide.bid

/-- The structural invariant of the order book:
sorted price keys per side, no dangling (empty) levels, each resting id
appears at most once across all queues, the id index and the side index
agree in both directions, and stored orders sit in the queue of their
own side and price. -/
structure Inv (ob : Orderbook) : Prop where
  sorted : ∀ s : OrderSide,
    (ob.ordersBySide.side s).Pairwise (fun x y => x.1 < y.1)
  ne : ∀ s : OrderSide, ∀ e ∈ ob.ordersBySide.side s, e.2 ≠ []
  nodupIds : ob.allIds.Nodup
  located : ∀ oid o, OrdersById.get ob.ordersById oid = some o →
    o.id = oid ∧
      oid ∈ PriceMap.levelAt (ob.ordersBySide.side o.side) o.unitPrice
  placed : ∀ s : OrderSide, ∀ e ∈ ob.ordersBySide.side s, ∀ oid ∈ e.2,
    ∃ o, OrdersById.get ob.ordersById oid = some o ∧
      o.side = s ∧ o.unitPrice = e.1

/-- The claim-level index-parity property: a stored id occurs exactly
once, in the queue of its own side and price, and every queued id
resolves through the id index. -/
def IndexParity (ob : Orderbook) : Prop :=
  (∀ oid o, OrdersById.get ob.ordersById oid = some o →
      (PriceMap.levelAt (ob.ordersBySide.side o.side) o.unitPrice).count
          oid = 1 ∧
        ob.allIds.count oid = 1) ∧
    ∀ oid ∈ ob.allIds, (OrdersById.get ob.ordersById oid).isSome = true

/-- The claim-level no-dangling-levels property. -/
def NoDanglingLevels (ob : Orderbook) : Prop :=
  ∀ s : OrderSide, ∀ e ∈ ob.ordersBySide.side s, e.2 ≠ []

/-- Healthy resting orders: open, with positive remaining quantity and
positive price.  These are the §3.7 fill-conservation facts for booked
orders together with price positivity. -/
def Healthy (ob : Orderbook) : Prop :=
  ∀ oid o, OrdersById.get ob.ordersById oid = some o →
    o.isClosed = false ∧ 0 < o.remaining ∧ 0 < o.unitPrice

/-- a occurs strictly before b in the list. -/
def Before (l : List OrderId) (a b : OrderId) : Prop :=
  ∃ l₁ l₂ l₃, l = l₁ ++ a :: l₂ ++ b :: l₃

/-! Concrete instances used by counterexamples and witnesses. -/

/-- A resting ask: price 1, quantity 1, untouched. -/
def makerUnit : LimitOrder := ⟨1, .ask, 1, false, 1, 0, .opened⟩

/-- An Open base-priced market bid whose quantity is zero: its
remaining is zero although its status is still Open. -/
def takerZeroQty : Order := ⟨2, .bid, .market false (.base ⟨0, 0⟩), .opened⟩

/-- A book holding a single resting ask: price 2, quantity 10. -/
def bookAsk2 : Orderbook :=
  Orderbook.new.insert ⟨1, .ask, 2, false, 10, 0, .opened⟩

/-- An Open funds-priced market bid with zero funds: funds / price
computes to a zero exchangeable quantity. -/
def takerZeroFunds : Order := ⟨2, .bid, .market false (.funds ⟨0, 0⟩), .opened⟩

/-- A book holding a single resting ask: price 10, quantity 10. -/
def bookAsk10 : Orderbook :=
  Orderbook.new.insert ⟨1, .ask, 10, false, 10, 0, .opened⟩

/-- A GTC limit bid at price 10 for quantity 10: it fully fills against
bookAsk10 and completes. -/
def takerGtcBid10 : Order :=
  ⟨2, .bid, .limit 10 (.goodTillCancel false) ⟨10, 0⟩, .opened⟩

/-- A GTC limit bid at price 1 for quantity 1. -/
def takerLimitBid1 : Order :=
  ⟨2, .bid, .limit 1 (.goodTillCancel false) ⟨1, 0⟩, .opened⟩

/-- A resting completed ask, used to exercise the closed-state cases. -/
def makerCompleted : LimitOrder := ⟨1, .ask, 1, false, 1, 1, .completed⟩

/-- A post-only GTC limit bid at price 5, below the resting ask of
bookAsk10: it does not cross. -/
def postOnlyBid5 : Order :=
  ⟨5, .bid, .limit 5 (.goodTillCancel true) ⟨10, 0⟩, .opened⟩

/-- A book holding two resting asks: id 1 at price 10 and id 3 at
price 12. -/
def bookTwoAsks : Orderbook :=
  (Orderbook.new.insert ⟨1, .ask, 10, false, 5, 0, .opened⟩).insert
    ⟨3, .ask, 12, false, 5, 0, .opened⟩

/-- An engine configured for the BTC/USDC pair over an empty book. -/
def rtBtc : Runtime := ⟨"BTC/USDC", Orderbook.new, 0⟩

/-- A fill-or-kill (all-or-none) base-priced market bid for quantity 10:
against bookAsk10 the opposite side holds exactly enough liquidity. -/
def fokBid10 : Order := ⟨9, .bid, .market true (.base ⟨10, 0⟩), .opened⟩

end ExchangeRs

namespace ExchangeRs

/-! Claim theorems and their supporting lemmas. -/

/-- C10: the LimitOrder → Order → LimitOrder round trip is the
identity, and TryFrom succeeds exactly on GoodTillCancel limit orders,
regardless of status. -/
theorem c10_conversion_roundtrip :
    ∀ (l : LimitOrder) (o : Order),
      LimitOrder.tryFrom l.toOrder = .ok l ∧
        (LimitOrder.tryFrom o).toBool = o.isLimitGtc := by
  intro l o
  constructor
  · cases l
    rfl
  · rcases o with ⟨id, side, type_, status⟩
    rcases type_ with ⟨p, tif, pb⟩ | ⟨aon, pb⟩
    · cases tif <;> rfl
    · rfl

/-- C8: cancel maps Open to Cancelled and Partial to Closed and leaves
the closed statuses untouched, on both Order and LimitOrder; the public
operations of the state machine (cancel and trade) never move a status
out of a closed state. -/
theorem c8_cancel_and_absorbing :
    ∀ (o : Order) (l : LimitOrder) (maker : LimitOrder) (taker : Order),
      (o.status = .opened → o.cancel.status = .cancelled) ∧
      (o.status = .partiallyFilled → o.cancel.status = .closed) ∧
      (o.isClosed = true → o.cancel = o) ∧
      (l.status = .opened → l.cancel.status = .cancelled) ∧
      (l.status = .partiallyFilled → l.cancel.status = .closed) ∧
      (l.isClosed = true → l.cancel = l) ∧
      (maker.isClosed = true ∨ taker.isClosed = true →
        Trade.tryNew maker taker = .err .closed) := by
  intro o l maker taker
  refine ⟨?_, ?_, ?_, ?_, ?_, ?_, ?_⟩
  · intro h
    simp [Order.cancel, h]
  · intro h
    simp [Order.cancel, h]
  · intro h
    cases ho : o.status <;>
      simp [Order.isClosed, ho] at h <;> simp [Order.cancel, ho]
  · intro h
    simp [LimitOrder.cancel, h]
  · intro h
    simp [LimitOrder.cancel, h]
  · intro h
    cases hl : l.status <;>
      simp [LimitOrder.isClosed, hl] at h <;> simp [LimitOrder.cancel, hl]
  · intro h
    have hm : maker.matches taker = .error .closed := by
      rcases h with h | h <;> simp [LimitOrder.matches, h]
    simp [Trade.tryNew, hm]

/-- Witness for C8 at concrete orders. -/
theorem c8_cancel_and_absorbing_witness :
    (Order.cancel takerZeroQty).status = .cancelled ∧
      Trade.tryNew makerCompleted takerZeroQty = .err .closed := by
  refine ⟨?_, ?_⟩
  · exact (c8_cancel_and_absorbing takerZeroQty makerUnit makerUnit
      takerZeroQty).1 rfl
  · exact (c8_cancel_and_absorbing takerZeroQty makerUnit makerCompleted
      takerZeroQty).2.2.2.2.2.2 (Or.inl rfl)

/-- C1 counterexample: an Open zero-quantity taker matches the maker,
yet Trade::try_new panics (maker.fill of a zero quantity fails its
expect) instead of succeeding. -/
theorem c1_matches_but_panics :
    makerUnit.matches takerZeroQty = .ok () ∧
      Trade.tryNew makerUnit takerZeroQty = .panic := by
  constructor <;> with_unfolding_all rfl

/-- C1 (amended): when the maker matches the taker, the maker price is
nonnegative and the computed exchangeable quantity is positive,
Trade::try_new succeeds; the trade carries the maker price, the
exchangeable quantity min(maker remaining, taker remaining in
quantity), and notional quantity × price; maker and taker advance their
filled amounts by exactly that quantity. -/
theorem c1_trade_try_new (maker : LimitOrder) (taker : Order)
    (hm : maker.matches taker = .ok ())
    (hq : 0 < exchangedQuantity maker taker)
    (hp : 0 ≤ maker.unitPrice) :
    ∃ maker' taker',
      Trade.tryNew maker taker =
        .ok
          ⟨taker.id, maker.id, exchangedQuantity maker taker,
            maker.unitPrice,
            exchangedQuantity maker taker * maker.unitPrice⟩
          maker' taker' ∧
        maker'.filled = maker.filled + exchangedQuantity maker taker ∧
        (taker.isFundsPriced = true →
          taker'.filledAmount =
            taker.filledAmount +
              exchangedQuantity maker taker * maker.unitPrice) ∧
        (taker.isFundsPriced = false →
          taker'.filledAmount =
            taker.filledAmount + exchangedQuantity maker taker) := by
  set q := exchangedQuantity maker taker with hqdef
  have hqne : ¬(q = 0) := ne_of_gt hq
  have hmakerle : q ≤ maker.remaining := by
    rw [hqdef, exchangedQuantity]
    exact min_le_right _ _
  have hmfill : maker.fill q = some (maker.fillUnchecked q) := by
    rw [LimitOrder.fill, LimitOrder.tryFill, if_neg hqne,
      if_neg (not_lt.mpr hmakerle)]
    rfl
  have htfill :
      taker.fill q maker.unitPrice =
        some (taker.fillUnchecked q maker.unitPrice) := by
    rw [Order.fill, Order.tryFill, if_neg hqne]
    rcases hrem : taker.remaining with funds | quantity
    · have hle : q ≤ funds / maker.unitPrice := by
        rw [hqdef, exchangedQuantity, hrem]
        exact min_le_left _ _
      have hpne : maker.unitPrice ≠ 0 := by
        intro h0
        rw [h0] at hle
        simp at hle
        exact absurd (lt_of_lt_of_le hq hle) (by simp)
      have hnle : q * maker.unitPrice ≤ funds := by
        calc q * maker.unitPrice
            ≤ (funds / maker.unitPrice) * maker.unitPrice := by
              exact mul_le_mul_of_nonneg_right hle hp
          _ = funds := div_mul_cancel₀ funds hpne
      simp [not_lt.mpr hnle, Except.toOption]
    · have hle : q ≤ quantity := by
        rw [hqdef, exchangedQuantity, hrem]
        exact min_le_left _ _
      simp [not_lt.mpr hle, Except.toOption]
  refine ⟨maker.fillUnchecked q, taker.fillUnchecked q maker.unitPrice,
    ?_, ?_, ?_, ?_⟩
  · rw [Trade.tryNew, hm]
    simp only [← hqdef, hmfill, htfill]
  · rfl
  · intro hfunds
    rcases taker with ⟨id, side, type_, status⟩
    rcases type_ with ⟨p, tif, pb⟩ | ⟨aon, pb⟩
    · simp [Order.isFundsPriced] at hfunds
    · rcases pb with pb | pf
      · simp [Order.isFundsPriced] at hfunds
      · simp [Order.fillUnchecked, Order.filledAmount]
  · intro hbase
    rcases taker with ⟨id, side, type_, status⟩
    rcases type_ with ⟨p, tif, pb⟩ | ⟨aon, pb⟩
    · simp [Order.fillUnchecked, Order.filledAmount]
    · rcases pb with pb | pf
      · simp [Order.fillUnchecked, Order.filledAmount]
      · simp [Order.isFundsPriced] at hbase

/-- Witness for C1 at a concrete crossing pair. -/
theorem c1_trade_try_new_witness :
    makerUnit.matches takerLimitBid1 = .ok () ∧
      0 < exchangedQuantity makerUnit takerLimitBid1 ∧
      (∃ maker' taker',
        Trade.tryNew makerUnit takerLimitBid1 =
          .ok
            ⟨takerLimitBid1.id, makerUnit.id,
              exchangedQuantity makerUnit takerLimitBid1,
              makerUnit.unitPrice,
              exchangedQuantity makerUnit takerLimitBid1 *
                makerUnit.unitPrice⟩
            maker' taker' ∧
          maker'.filled =
            makerUnit.filled + exchangedQuantity makerUnit takerLimitBid1 ∧
          (takerLimitBid1.isFundsPriced = true →
            taker'.filledAmount =
              takerLimitBid1.filledAmount +
                exchangedQuantity makerUnit takerLimitBid1 *
                  makerUnit.unitPrice) ∧
          (takerLimitBid1.isFundsPriced = false →
            taker'.filledAmount =
              takerLimitBid1.filledAmount +
                exchangedQuantity makerUnit takerLimitBid1)) := by
  refine ⟨by with_unfolding_all rfl, by with_unfolding_all decide, ?_⟩
  exact c1_trade_try_new makerUnit takerLimitBid1 (by with_unfolding_all rfl)
    (by with_unfolding_all decide) (by with_unfolding_all decide)

/-- C3: an Open funds-priced taker whose exchangeable quantity against
the resting ask computes to zero makes the matching loop panic (the
expect inside LimitOrder::fill fails on the zero quantity) instead of
terminating matching for that taker. -/
theorem c3_zero_quantity_panics :
    exchangedQuantity ⟨1, .ask, 2, false, 10, 0, .opened⟩ takerZeroFunds
        = 0 ∧
      MatchingAlgo.matching bookAsk2 takerZeroFunds = .panic := by
  constructor <;> with_unfolding_all rfl

/-- C4: a GTC limit bid that fully fills against the book ends matching
with status Completed, yet the missing is_open() guard in front of the
residual insertion books it: the final book holds the completed taker
(id 2). -/
theorem c4_completed_taker_booked :
    MatchingAlgo.matching bookAsk10 takerGtcBid10 =
      .ok [⟨2, 1, 10, 10, 100⟩]
        ⟨[(2, ⟨2, .bid, 10, false, 10, 10, .completed⟩)],
          ⟨[], [(10, [2])]⟩⟩
        ⟨2, .bid, .limit 10 (.goodTillCancel false) ⟨10, 10⟩,
          .completed⟩ := by
  with_unfolding_all rfl

/-- C9 counterexample: a run whose first request carries a mismatched
pair terminates with the Mismatch error, never processing the valid
second request, although that second request alone processes fine. -/
theorem c9_engine_stops_on_mismatch :
    Runtime.run rtBtc
        [.create "ETH/USDC" takerGtcBid10,
          .create "BTC/USDC" takerGtcBid10] =
      some (.error (.mismatch "BTC/USDC" "ETH/USDC")) ∧
      Runtime.run rtBtc [.create "BTC/USDC" takerGtcBid10] =
        some (.ok
          ⟨"BTC/USDC",
            Orderbook.new.insert ⟨2, .bid, 10, false, 10, 0, .opened⟩,
            1⟩) := by
  constructor <;> with_unfolding_all rfl

/-- C9 (amended): a Create whose pair differs from the engine's is
rejected with PairError::Mismatch{expected, found} without touching the
book, and Runtime::run then stops with that error, processing none of
the subsequent requests. -/
theorem c9_mismatch_rejected (rt : Runtime) (pair' : String) (o : Order)
    (rest : List Request) (h : pair' ≠ rt.pair) :
    rt.process (.create pair' o) =
        some (.error (.mismatch rt.pair pair')) ∧
      rt.run (.create pair' o :: rest) =
        some (.error (.mismatch rt.pair pair')) := by
  have hp : rt.process (.create pair' o) =
      some (.error (.mismatch rt.pair pair')) := by
    simp [Runtime.process, h]
  exact ⟨hp, by simp [Runtime.run, hp]⟩

/-- Witness for C9 at a concrete engine and request list. -/
theorem c9_mismatch_rejected_witness :
    "ETH/USDC" ≠ rtBtc.pair ∧
      (rtBtc.process (.create "ETH/USDC" takerGtcBid10) =
          some (.error (.mismatch rtBtc.pair "ETH/USDC")) ∧
        rtBtc.run [.create "ETH/USDC" takerGtcBid10] =
          some (.error (.mismatch rtBtc.pair "ETH/USDC"))) :=
  ⟨by decide,
    c9_mismatch_rejected rtBtc "ETH/USDC" takerGtcBid10 [] (by decide)⟩

/-! Association-list lemmas for the id index. -/

theorem ordersById_get_nil (oid : OrderId) :
    OrdersById.get [] oid = none := rfl

theorem ordersById_get_cons (e : OrderId × LimitOrder) (m : OrdersById)
    (oid : OrderId) :
    OrdersById.get (e :: m) oid =
      if e.1 = oid then some e.2 else OrdersById.get m oid := by
  by_cases h : e.1 = oid <;> simp [OrdersById.get, List.find?_cons, h]

theorem ordersById_get_append (m₁ m₂ : OrdersById) (oid : OrderId) :
    OrdersById.get (m₁ ++ m₂) oid =
      (OrdersById.get m₁ oid).or (OrdersById.get m₂ oid) := by
  induction m₁ with
  | nil => simp [ordersById_get_nil, OrdersById.get]
  | cons e t ih =>
    rw [List.cons_append, ordersById_get_cons, ordersById_get_cons]
    by_cases h : e.1 = oid <;> simp [h, ih]

theorem ordersById_get_filterKey_self (m : OrdersById) (oid : OrderId) :
    OrdersById.get (m.filter (fun e => !(e.1 = oid : Bool))) oid = none := by
  induction m with
  | nil => rfl
  | cons e t ih =>
    by_cases h : e.1 = oid
    · simpa [List.filter_cons, h] using ih
    · simp [List.filter_cons, h, ordersById_get_cons, ih]

theorem ordersById_get_filterKey_ne (m : OrdersById) (oid k : OrderId)
    (h : k ≠ oid) :
    OrdersById.get (m.filter (fun e => !(e.1 = oid : Bool))) k =
      OrdersById.get m k := by
  induction m with
  | nil => rfl
  | cons e t ih =>
    by_cases he : e.1 = oid
    · have hek : ¬ e.1 = k := by
        rw [he]
        exact fun hh => h hh.symm
      rw [ordersById_get_cons, if_neg hek, ← ih]
      simp [he]
    · rw [List.filter_cons, if_pos (by simp [he])]
      rw [ordersById_get_cons, ordersById_get_cons]
      by_cases hk : e.1 = k <;> simp [hk, ih]

theorem ordersById_get_insert_self (m : OrdersById) (oid : OrderId)
    (o : LimitOrder) :
    OrdersById.get (OrdersById.insert m oid o) oid = some o := by
  rw [OrdersById.insert, ordersById_get_append,
    ordersById_get_filterKey_self]
  simp [ordersById_get_cons, ordersById_get_nil]

theorem ordersById_get_insert_ne (m : OrdersById) (oid k : OrderId)
    (o : LimitOrder) (h : k ≠ oid) :
    OrdersById.get (OrdersById.insert m oid o) k = OrdersById.get m k := by
  rw [OrdersById.insert, ordersById_get_append,
    ordersById_get_filterKey_ne m oid k h]
  cases hg : OrdersById.get m k
  · simp [ordersById_get_cons, ordersById_get_nil, Ne.symm h]
  · simp

theorem ordersById_remove_eq (m : OrdersById) (oid : OrderId)
    (o : LimitOrder) (h : OrdersById.get m oid = some o) :
    OrdersById.remove m oid =
      some (o, m.filter (fun e => !(e.1 = oid : Bool))) := by
  rw [OrdersById.remove, h]

theorem ordersById_get_writeBack_self (m : OrdersById) (o : LimitOrder)
    (w : LimitOrder) (h : OrdersById.get m o.id = some w) :
    OrdersById.get
        (m.map (fun e => if e.1 = o.id then (o.id, o) else e)) o.id =
      some o := by
  induction m with
  | nil => simp [ordersById_get_nil] at h
  | cons e t ih =>
    rw [ordersById_get_cons] at h
    by_cases he : e.1 = o.id
    · simp [List.map_cons, he, ordersById_get_cons]
    · rw [if_neg he] at h
      simp only [List.map_cons, if_neg he]
      rw [ordersById_get_cons, if_neg he]
      exact ih h

theorem ordersById_get_writeBack_ne (m : OrdersById) (o : LimitOrder)
    (k : OrderId) (h : k ≠ o.id) :
    OrdersById.get
        (m.map (fun e => if e.1 = o.id then (o.id, o) else e)) k =
      OrdersById.get m k := by
  induction m with
  | nil => rfl
  | cons e t ih =>
    by_cases he : e.1 = o.id
    · simp only [List.map_cons, if_pos he]
      rw [ordersById_get_cons, ordersById_get_cons, he]
      simp [Ne.symm h, ih]
    · simp only [List.map_cons, if_neg he]
      rw [ordersById_get_cons, ordersById_get_cons]
      by_cases hk : e.1 = k <;> simp [hk, ih]

/-! Price-map lemmas. -/

theorem priceMap_ids_cons (e : Price × Level) (m : PriceMap) :
    PriceMap.ids (e :: m) = e.2 ++ PriceMap.ids m := by
  simp [PriceMap.ids]

theorem priceMap_ids_append (m₁ m₂ : PriceMap) :
    PriceMap.ids (m₁ ++ m₂) = PriceMap.ids m₁ ++ PriceMap.ids m₂ := by
  simp [PriceMap.ids]

theorem priceMap_ids_reverse_perm (m : PriceMap) :
    (PriceMap.ids m.reverse).Perm (PriceMap.ids m) := by
  induction m with
  | nil => simp [PriceMap.ids]
  | cons e t ih =>
    rw [List.reverse_cons, priceMap_ids_append, priceMap_ids_cons]
    have h1 : (PriceMap.ids t.reverse ++ PriceMap.ids [e]).Perm
        (PriceMap.ids [e] ++ PriceMap.ids t.reverse) :=
      List.perm_append_comm
    have h2 : (PriceMap.ids [e] ++ PriceMap.ids t.reverse).Perm
        (PriceMap.ids [e] ++ PriceMap.ids t) :=
      ih.append_left _
    have h3 : PriceMap.ids [e] ++ PriceMap.ids t = e.2 ++ PriceMap.ids t := by
      simp [PriceMap.ids]
    exact (h1.trans h2).trans (h3 ▸ List.Perm.refl _)

theorem priceMap_levelAt_nil (p : Price) : PriceMap.levelAt [] p = [] := rfl

theorem priceMap_levelAt_cons (e : Price × Level) (m : PriceMap)
    (p : Price) :
    PriceMap.levelAt (e :: m) p =
      if e.1 = p then e.2 else PriceMap.levelAt m p := by
  by_cases h : e.1 = p <;> simp [PriceMap.levelAt, List.find?_cons, h]

theorem priceMap_levelAt_of_forall_ne (m : PriceMap) (p : Price)
    (h : ∀ e ∈ m, e.1 ≠ p) : PriceMap.levelAt m p = [] := by
  induction m with
  | nil => rfl
  | cons e t ih =>
    rw [priceMap_levelAt_cons, if_neg (h e (by simp))]
    exact ih (fun e' he' => h e' (by simp [he']))

theorem priceMap_levelAt_entry (m : PriceMap) (p : Price)
    (h : PriceMap.levelAt m p ≠ []) : (p, PriceMap.levelAt m p) ∈ m := by
  induction m with
  | nil => exact absurd rfl h
  | cons e t ih =>
    rcases e with ⟨q, l⟩
    rw [priceMap_levelAt_cons] at h ⊢
    by_cases he : (q, l).1 = p
    · rw [if_pos he]
      simp only at he
      subst he
      exact List.mem_cons_self _ _
    · rw [if_neg he] at h ⊢
      exact List.mem_cons_of_mem _ (ih h)

theorem priceMap_push_keys (P : Price → Prop) (m : PriceMap) (p : Price)
    (x : OrderId) (hp : P p) (hm : ∀ e ∈ m, P e.1) :
    ∀ e ∈ PriceMap.push m p x, P e.1 := by
  induction m with
  | nil =>
    intro e he
    rw [PriceMap.push, List.mem_singleton] at he
    rw [he]
    exact hp
  | cons f t ih =>
    rcases f with ⟨q, l⟩
    intro e he
    rw [PriceMap.push] at he
    by_cases h1 : p < q
    · rw [if_pos h1] at he
      rcases List.mem_cons.mp he with he | he
      · rw [he]; exact hp
      · rcases List.mem_cons.mp he with he | he
        · rw [he]; exact hm _ (by simp)
        · exact hm _ (by simp [he])
    · rw [if_neg h1] at he
      by_cases h2 : p = q
      · rw [if_pos h2] at he
        rcases List.mem_cons.mp he with he | he
        · rw [he]; exact hm (q, l) (by simp)
        · exact hm _ (by simp [he])
      · rw [if_neg h2] at he
        rcases List.mem_cons.mp he with he | he
        · rw [he]; exact hm (q, l) (by simp)
        · exact ih (fun e' he' => hm e' (by simp [he'])) e he

theorem priceMap_push_pairwise (m : PriceMap) (p : Price) (x : OrderId)
    (hs : m.Pairwise (fun a b => a.1 < b.1)) :
    (PriceMap.push m p x).Pairwise (fun a b => a.1 < b.1) := by
  induction m with
  | nil => simp [PriceMap.push]
  | cons f t ih =>
    rcases f with ⟨q, l⟩
    rw [List.pairwise_cons] at hs
    rcases hs with ⟨hq, ht⟩
    rw [PriceMap.push]
    by_cases h1 : p < q
    · rw [if_pos h1]
      refine List.Pairwise.cons ?_ (List.Pairwise.cons hq ht)
      intro e he
      rcases List.mem_cons.mp he with he | he
      · rw [he]; exact h1
      · exact lt_trans h1 (hq e he)
    · rw [if_neg h1]
      by_cases h2 : p = q
      · rw [if_pos h2]
        exact List.Pairwise.cons hq ht
      · rw [if_neg h2]
        have hqp : q < p := lt_of_le_of_ne (not_lt.mp h1) (Ne.symm h2)
        refine List.Pairwise.cons ?_ (ih ht)
        exact priceMap_push_keys (fun r => q < r) t p x hqp hq

theorem priceMap_push_ne_nil (m : PriceMap) (p : Price) (x : OrderId)
    (hm : ∀ e ∈ m, e.2 ≠ []) : ∀ e ∈ PriceMap.push m p x, e.2 ≠ [] := by
  induction m with
  | nil =>
    intro e he
    rw [PriceMap.push, List.mem_singleton] at he
    simp [he]
  | cons f t ih =>
    rcases f with ⟨q, l⟩
    intro e he
    rw [PriceMap.push] at he
    by_cases h1 : p < q
    · rw [if_pos h1] at he
      rcases List.mem_cons.mp he with he | he
      · simp [he]
      · rcases List.mem_cons.mp he with he | he
        · rw [he]; exact hm _ (by simp)
        · exact hm _ (by simp [he])
    · rw [if_neg h1] at he
      by_cases h2 : p = q
      · rw [if_pos h2] at he
        rcases List.mem_cons.mp he with he | he
        · simp [he]
        · exact hm _ (by simp [he])
      · rw [if_neg h2] at he
        rcases List.mem_cons.mp he with he | he
        · rw [he]; exact hm _ (by simp)
        · exact ih (fun e' he' => hm e' (by simp [he'])) e he

theorem priceMap_push_ids (m : PriceMap) (p : Price) (x : OrderId) :
    ∃ u v, PriceMap.ids (PriceMap.push m p x) = u ++ x :: v ∧
      PriceMap.ids m = u ++ v := by
  induction m with
  | nil => exact ⟨[], [], rfl, rfl⟩
  | cons f t ih =>
    rcases f with ⟨q, l⟩
    rw [PriceMap.push]
    by_cases h1 : p < q
    · rw [if_pos h1]
      refine ⟨[], l ++ PriceMap.ids t, ?_, ?_⟩
      · simp [priceMap_ids_cons]
      · simp [priceMap_ids_cons]
    · rw [if_neg h1]
      by_cases h2 : p = q
      · rw [if_pos h2]
        refine ⟨l, PriceMap.ids t, ?_, ?_⟩
        · simp [priceMap_ids_cons]
        · simp [priceMap_ids_cons]
      · rw [if_neg h2]
        rcases ih with ⟨u, v, h3, h4⟩
        refine ⟨l ++ u, v, ?_, ?_⟩
        · simp [priceMap_ids_cons, h3]
        · simp [priceMap_ids_cons, h4]

theorem priceMap_push_levelAt_self (m : PriceMap) (p : Price) (x : OrderId)
    (hs : m.Pairwise (fun a b => a.1 < b.1)) :
    PriceMap.levelAt (PriceMap.push m p x) p =
      PriceMap.levelAt m p ++ [x] := by
  induction m with
  | nil => simp [PriceMap.push, priceMap_levelAt_cons, priceMap_levelAt_nil]
  | cons f t ih =>
    rcases f with ⟨q, l⟩
    rw [List.pairwise_cons] at hs
    rcases hs with ⟨hq, ht⟩
    rw [PriceMap.push]
    by_cases h1 : p < q
    · rw [if_pos h1, priceMap_levelAt_cons, if_pos rfl,
        priceMap_levelAt_cons, if_neg (by simpa using (ne_of_gt h1))]
      rw [priceMap_levelAt_of_forall_ne t p
        (fun e he => ne_of_gt (lt_trans h1 (hq e he)))]
      simp
    · rw [if_neg h1]
      by_cases h2 : p = q
      · rw [if_pos h2, priceMap_levelAt_cons, if_pos h2.symm,
          priceMap_levelAt_cons, if_pos h2.symm]
      · rw [if_neg h2, priceMap_levelAt_cons,
          if_neg (fun hh => h2 hh.symm), priceMap_levelAt_cons,
          if_neg (fun hh => h2 hh.symm)]
        exact ih ht

theorem priceMap_push_levelAt_ne (m : PriceMap) (p : Price) (x : OrderId)
    (r : Price) (hr : r ≠ p) :
    PriceMap.levelAt (PriceMap.push m p x) r = PriceMap.levelAt m r := by
  induction m with
  | nil =>
    simp [PriceMap.push, priceMap_levelAt_cons, priceMap_levelAt_nil,
      Ne.symm hr]
  | cons f t ih =>
    rcases f with ⟨q, l⟩
    rw [PriceMap.push]
    by_cases h1 : p < q
    · rw [if_pos h1, priceMap_levelAt_cons, if_neg (Ne.symm hr)]
    · rw [if_neg h1]
      by_cases h2 : p = q
      · rw [if_pos h2, priceMap_levelAt_cons, priceMap_levelAt_cons]
        have : ¬ q = r := fun hh => hr (hh ▸ h2).symm
        rw [if_neg this, if_neg this]
      · rw [if_neg h2, priceMap_levelAt_cons, priceMap_levelAt_cons]
        by_cases h3 : q = r
        · rw [if_pos h3, if_pos h3]
        · rw [if_neg h3, if_neg h3]
          exact ih


/-! Level-removal lemmas. -/

theorem level_indexOf?_eraseIdx (l : Level) (a : OrderId) :
    ∀ i, l.indexOf? a = some i → l.eraseIdx i = l.erase a := by
  induction l with
  | nil => intro i h; simp at h
  | cons x xs ih =>
    intro i h
    rw [List.indexOf?_cons] at h
    by_cases hx : x = a
    · rw [if_pos (by simp [hx])] at h
      rcases Option.some.inj h with rfl
      rw [List.eraseIdx_cons_zero, List.erase_cons, if_pos (by simp [hx])]
    · rw [if_neg (by simp [hx])] at h
      rcases Option.map_eq_some'.mp h with ⟨j, hj, rfl⟩
      rw [List.eraseIdx_cons_succ, List.erase_cons, if_neg (by simp [hx]),
        ih j hj]

theorem level_indexOf?_isSome (l : Level) (a : OrderId) (h : a ∈ l) :
    ∃ i, l.indexOf? a = some i := by
  induction l with
  | nil => simp at h
  | cons x xs ih =>
    rw [List.indexOf?_cons]
    by_cases hx : x = a
    · exact ⟨0, by rw [if_pos (by simp [hx])]⟩
    · rcases List.mem_cons.mp h with hh | hh
      · exact absurd hh.symm hx
      · rcases ih hh with ⟨j, hj⟩
        exact ⟨j + 1, by rw [if_neg (by simp [hx]), hj]; rfl⟩

theorem priceMap_removeId_struct (m : PriceMap) (p : Price) (oid : OrderId)
    (hs : m.Pairwise (fun a b => a.1 < b.1))
    (hmem : oid ∈ PriceMap.levelAt m p) :
    ∃ pre l post, m = pre ++ (p, l) :: post ∧ (∀ e ∈ pre, e.1 ≠ p) ∧
      PriceMap.levelAt m p = l ∧ oid ∈ l ∧
      PriceMap.removeId m p oid =
        some (if l.length = 1 then pre ++ post
          else pre ++ (p, l.erase oid) :: post) := by
  induction m with
  | nil => exact absurd hmem (by simp [priceMap_levelAt_nil])
  | cons f t ih =>
    rcases f with ⟨q, l₀⟩
    rw [List.pairwise_cons] at hs
    rcases hs with ⟨hq, ht⟩
    rw [priceMap_levelAt_cons] at hmem
    by_cases hqp : (q, l₀).1 = p
    · simp only at hqp
      subst hqp
      rw [if_pos rfl] at hmem
      refine ⟨[], l₀, t, by simp, by simp, ?_, hmem, ?_⟩
      · rw [priceMap_levelAt_cons, if_pos rfl]
      · rw [PriceMap.removeId, if_pos rfl]
        by_cases hlen : l₀.length = 1
        · rw [if_pos hlen, if_pos hlen, List.nil_append]
        · rw [if_neg hlen, if_neg hlen]
          rcases level_indexOf?_isSome l₀ oid hmem with ⟨i, hi⟩
          rw [hi]
          simp [level_indexOf?_eraseIdx l₀ oid i hi]
    · rw [if_neg hqp] at hmem
      rcases ih ht hmem with ⟨pre, l, post, hsplit, hpre, hlev, hmem', hrem⟩
      refine ⟨(q, l₀) :: pre, l, post, by rw [hsplit, List.cons_append],
        ?_, ?_, hmem', ?_⟩
      · intro e he
        rcases List.mem_cons.mp he with he | he
        · rw [he]; exact hqp
        · exact hpre e he
      · rw [priceMap_levelAt_cons, if_neg hqp, hlev]
      · rw [PriceMap.removeId, if_neg (fun hh => hqp hh.symm), hrem]
        by_cases hlen : l.length = 1
        · rw [if_pos hlen, if_pos hlen, Option.map_some', List.cons_append]
        · rw [if_neg hlen, if_neg hlen, Option.map_some', List.cons_append]


theorem priceMap_levelAt_append_of_ne (m₁ m₂ : PriceMap) (p : Price)
    (h : ∀ e ∈ m₁, e.1 ≠ p) :
    PriceMap.levelAt (m₁ ++ m₂) p = PriceMap.levelAt m₂ p := by
  induction m₁ with
  | nil => rfl
  | cons e t ih =>
    rw [List.cons_append, priceMap_levelAt_cons, if_neg (h e (by simp))]
    exact ih (fun e' he' => h e' (by simp [he']))

theorem priceMap_levelAt_middle_ne (pre post : PriceMap) (p : Price)
    (l : Level) (r : Price) (hr : p ≠ r) :
    PriceMap.levelAt (pre ++ (p, l) :: post) r =
      PriceMap.levelAt (pre ++ post) r := by
  induction pre with
  | nil => rw [List.nil_append, List.nil_append, priceMap_levelAt_cons,
      if_neg hr]
  | cons e t ih =>
    rw [List.cons_append, List.cons_append, priceMap_levelAt_cons,
      priceMap_levelAt_cons]
    by_cases he : e.1 = r
    · rw [if_pos he, if_pos he]
    · rw [if_neg he, if_neg he, ih]

theorem priceMap_removeId_spec (m : PriceMap) (p : Price) (oid : OrderId)
    (hs : m.Pairwise (fun a b => a.1 < b.1))
    (hmem : oid ∈ PriceMap.levelAt m p) :
    ∃ m', PriceMap.removeId m p oid = some m' ∧
      PriceMap.levelAt m' p = (PriceMap.levelAt m p).erase oid ∧
      (∀ r, r ≠ p → PriceMap.levelAt m' r = PriceMap.levelAt m r) ∧
      (∃ u v, PriceMap.ids m = u ++ oid :: v ∧ PriceMap.ids m' = u ++ v) ∧
      m'.Pairwise (fun a b => a.1 < b.1) ∧
      ((∀ e ∈ m, e.2 ≠ []) → ∀ e' ∈ m', e'.2 ≠ []) ∧
      (∀ e' ∈ m', ∀ k ∈ e'.2, ∃ e ∈ m, e.1 = e'.1 ∧ k ∈ e.2) := by
  rcases priceMap_removeId_struct m p oid hs hmem with
    ⟨pre, l, post, hsplit, hpre, hlev, hmeml, hrem⟩
  have hsl : (pre ++ (p, l) :: post).Pairwise (fun a b => a.1 < b.1) :=
    hsplit ▸ hs
  rw [List.pairwise_append] at hsl
  rcases hsl with ⟨hspre, hsmid, hcross⟩
  rw [List.pairwise_cons] at hsmid
  rcases hsmid with ⟨hpost, hspost⟩
  by_cases hlen : l.length = 1
  · -- singleton level: the whole entry is removed
    rcases List.length_eq_one.mp hlen with ⟨a, rfl⟩
    rcases List.mem_singleton.mp hmeml with rfl
    rw [if_pos hlen] at hrem
    refine ⟨pre ++ post, hrem, ?_, ?_, ?_, ?_, ?_, ?_⟩
    · rw [priceMap_levelAt_append_of_ne pre post p hpre,
        priceMap_levelAt_of_forall_ne post p
          (fun e he => ne_of_gt (hpost e he)), hlev]
      simp
    · intro r hr
      rw [hsplit, priceMap_levelAt_middle_ne pre post p [oid] r
        (fun hh => hr hh.symm)]
    · refine ⟨PriceMap.ids pre, PriceMap.ids post, ?_, ?_⟩
      · rw [hsplit, priceMap_ids_append, priceMap_ids_cons]
        rfl
      · rw [priceMap_ids_append]
    · rw [List.pairwise_append]
      exact ⟨hspre, hspost,
        fun a ha b hb => lt_trans (hcross a ha (p, [oid]) (by simp))
          (hpost b hb)⟩
    · intro hne e' he'
      rcases List.mem_append.mp he' with he' | he'
      · exact hne e' (by rw [hsplit]; exact List.mem_append_left _ he')
      · have hm' : e' ∈ m := by
          rw [hsplit]
          exact List.mem_append_right _ (List.mem_cons_of_mem _ he')
        exact hne e' hm'
    · intro e' he' k hk
      rcases List.mem_append.mp he' with he' | he'
      · exact ⟨e', by rw [hsplit]; exact List.mem_append_left _ he',
          rfl, hk⟩
      · have hm' : e' ∈ m := by
          rw [hsplit]
          exact List.mem_append_right _ (List.mem_cons_of_mem _ he')
        exact ⟨e', hm', rfl, hk⟩
  · -- larger level: erase the first occurrence inside the level
    rw [if_neg hlen] at hrem
    have hlnil : l ≠ [] := by
      intro hh
      rw [hh] at hmeml
      simp at hmeml
    refine ⟨pre ++ (p, l.erase oid) :: post, hrem, ?_, ?_, ?_, ?_, ?_, ?_⟩
    · rw [priceMap_levelAt_append_of_ne _ _ _ hpre, priceMap_levelAt_cons,
        if_pos rfl, hlev]
    · intro r hr
      rw [hsplit, priceMap_levelAt_middle_ne pre post p l r
        (fun hh => hr hh.symm),
        priceMap_levelAt_middle_ne pre post p (l.erase oid) r
          (fun hh => hr hh.symm)]
    · rcases List.exists_erase_eq hmeml with ⟨u₀, v₀, _, hud, hananas⟩
      refine ⟨PriceMap.ids pre ++ u₀, v₀ ++ PriceMap.ids post, ?_, ?_⟩
      · rw [hsplit, priceMap_ids_append, priceMap_ids_cons]
        simp only at hud ⊢
        rw [hud]
        simp [List.append_assoc]
      · rw [priceMap_ids_append, priceMap_ids_cons]
        simp only at hananas ⊢
        rw [hananas]
        simp [List.append_assoc]
    · rw [List.pairwise_append, List.pairwise_cons]
      refine ⟨hspre, ⟨hpost, hspost⟩, ?_⟩
      intro a ha b hb
      rcases List.mem_cons.mp hb with hb | hb
      · rw [hb]
        exact hcross a ha (p, l) (by simp)
      · exact lt_trans (hcross a ha (p, l) (by simp)) (hpost b hb)
    · intro hne e' he'
      rcases List.mem_append.mp he' with he' | he'
      · exact hne e' (by rw [hsplit]; exact List.mem_append_left _ he')
      · rcases List.mem_cons.mp he' with he' | he'
        · rw [he']
          intro hh
          simp only at hh
          have hlen2 : (l.erase oid).length = l.length - 1 := by
            rw [List.length_erase, if_pos hmeml]
          rw [hh] at hlen2
          simp only [List.length_nil] at hlen2
          rcases Nat.le_one_iff_eq_zero_or_eq_one.mp
            (Nat.le_of_sub_eq_zero hlen2.symm) with h3 | h3
          · exact hlnil (List.length_eq_zero.mp h3)
          · exact hlen h3
        · have hm' : e' ∈ m := by
            rw [hsplit]
            exact List.mem_append_right _ (List.mem_cons_of_mem _ he')
          exact hne e' hm'
    · intro e' he' k hk
      rcases List.mem_append.mp he' with he' | he'
      · exact ⟨e', by rw [hsplit]; exact List.mem_append_left _ he',
          rfl, hk⟩
      · rcases List.mem_cons.mp he' with he' | he'
        · have hm' : (p, l) ∈ m := by
            rw [hsplit]
            exact List.mem_append_right _ (List.mem_cons_self _ _)
          refine ⟨(p, l), hm', by rw [he'], ?_⟩
          rw [he'] at hk
          exact List.erase_subset _ _ hk
        · have hm' : e' ∈ m := by
            rw [hsplit]
            exact List.mem_append_right _ (List.mem_cons_of_mem _ he')
          exact ⟨e', hm', rfl, hk⟩


/-! Side-index and id-membership helpers. -/

theorem ordersBySide_setSide_self (b : OrdersBySide) (s : OrderSide)
    (m : PriceMap) : (b.setSide s m).side s = m := by
  cases s <;> rfl

theorem ordersBySide_setSide_other (b : OrdersBySide) (s s' : OrderSide)
    (m : PriceMap) (h : s' ≠ s) : (b.setSide s m).side s' = b.side s' := by
  cases s <;> cases s' <;> first | rfl | exact absurd rfl h

theorem priceMap_mem_ids (m : PriceMap) (k : OrderId) :
    k ∈ PriceMap.ids m ↔ ∃ e ∈ m, k ∈ e.2 := by
  simp only [PriceMap.ids, List.mem_flatten, List.mem_map]
  constructor
  · rintro ⟨l, ⟨e, he, rfl⟩, hk⟩
    exact ⟨e, he, hk⟩
  · rintro ⟨e, he, hk⟩
    exact ⟨e.2, ⟨e, he, rfl⟩, hk⟩

theorem orderbook_allIds_eq (ob : Orderbook) :
    ob.allIds = PriceMap.ids (ob.ordersBySide.side .ask) ++
      PriceMap.ids (ob.ordersBySide.side .bid) := rfl

theorem orderbook_mem_allIds (ob : Orderbook) (k : OrderId) :
    k ∈ ob.allIds ↔
      ∃ s : OrderSide, ∃ e ∈ ob.ordersBySide.side s, k ∈ e.2 := by
  rw [orderbook_allIds_eq, List.mem_append, priceMap_mem_ids,
    priceMap_mem_ids]
  constructor
  · rintro (h | h)
    · exact ⟨.ask, h⟩
    · exact ⟨.bid, h⟩
  · rintro ⟨s, h⟩
    cases s
    · exact Or.inl h
    · exact Or.inr h

theorem orderbook_mem_allIds_isSome (ob : Orderbook) (k : OrderId)
    (hInv : Inv ob) (h : k ∈ ob.allIds) :
    (OrdersById.get ob.ordersById k).isSome = true := by
  rcases (orderbook_mem_allIds ob k).mp h with ⟨s, e, he, hk⟩
  rcases hInv.placed s e he k hk with ⟨o, ho, _, _⟩
  rw [ho]
  rfl

theorem allIds_setSide (byId : OrdersById) (b : OrdersBySide)
    (s : OrderSide) (m : PriceMap) :
    (Orderbook.allIds ⟨byId, b.setSide s m⟩).Perm
      (PriceMap.ids m ++ PriceMap.ids (b.side s.opposite)) := by
  cases s
  · exact List.Perm.refl _
  · exact List.perm_append_comm

theorem allIds_by_side (ob : Orderbook) (s : OrderSide) :
    ob.allIds.Perm
      (PriceMap.ids (ob.ordersBySide.side s) ++
        PriceMap.ids (ob.ordersBySide.side s.opposite)) := by
  cases s
  · exact List.Perm.refl _
  · exact List.perm_append_comm

theorem priceMap_push_entries (m : PriceMap) (p : Price) (x : OrderId) :
    ∀ e ∈ PriceMap.push m p x, ∀ k ∈ e.2,
      (k = x ∧ e.1 = p) ∨ ∃ e₀ ∈ m, e₀.1 = e.1 ∧ k ∈ e₀.2 := by
  induction m with
  | nil =>
    intro e he k hk
    rw [PriceMap.push, List.mem_singleton] at he
    rw [he] at hk ⊢
    rcases List.mem_singleton.mp hk with rfl
    exact Or.inl ⟨rfl, rfl⟩
  | cons f t ih =>
    rcases f with ⟨q, l⟩
    intro e he k hk
    rw [PriceMap.push] at he
    by_cases h1 : p < q
    · rw [if_pos h1] at he
      rcases List.mem_cons.mp he with he | he
      · rw [he] at hk ⊢
        rcases List.mem_singleton.mp hk with rfl
        exact Or.inl ⟨rfl, rfl⟩
      · exact Or.inr ⟨e, he, rfl, hk⟩
    · rw [if_neg h1] at he
      by_cases h2 : p = q
      · rw [if_pos h2] at he
        rcases List.mem_cons.mp he with he | he
        · rw [he] at hk ⊢
          rcases List.mem_append.mp hk with hk | hk
          · exact Or.inr ⟨(q, l), by simp, rfl, hk⟩
          · rcases List.mem_singleton.mp hk with rfl
            exact Or.inl ⟨rfl, h2.symm ▸ rfl⟩
        · exact Or.inr ⟨e, List.mem_cons_of_mem _ he, rfl, hk⟩
      · rw [if_neg h2] at he
        rcases List.mem_cons.mp he with he | he
        · rw [he] at hk ⊢
          exact Or.inr ⟨(q, l), by simp, rfl, hk⟩
        · rcases ih e he k hk with h | ⟨e₀, he₀, h₀⟩
          · exact Or.inl h
          · exact Or.inr ⟨e₀, List.mem_cons_of_mem _ he₀, h₀⟩

theorem ordersById_filter_length (m : OrdersById) (oid : OrderId)
    (h : (OrdersById.get m oid).isSome = true) :
    (m.filter (fun e => !(e.1 = oid : Bool))).length < m.length := by
  induction m with
  | nil => simp [OrdersById.get] at h
  | cons e t ih =>
    rw [ordersById_get_cons] at h
    rw [List.filter_cons]
    by_cases he : e.1 = oid
    · rw [if_neg (by simp [he])]
      calc (t.filter (fun e => !(e.1 = oid : Bool))).length
          ≤ t.length := t.length_filter_le _
        _ < (e :: t).length := by simp
    · rw [if_pos (by simp [he]), List.length_cons, List.length_cons]
      rw [if_neg he] at h
      exact Nat.succ_lt_succ (ih h)


/-! Invariant preservation. -/

theorem inv_empty : Inv Orderbook.new := by
  refine ⟨?_, ?_, ?_, ?_, ?_⟩
  · intro s; cases s <;> exact List.Pairwise.nil
  · intro s e he; cases s <;> simp [Orderbook.new, OrdersBySide.side] at he
  · exact List.nodup_nil
  · intro oid o h
    simp [Orderbook.new, OrdersById.get] at h
  · intro s e he
    cases s <;> simp [Orderbook.new, OrdersBySide.side] at he

theorem inv_insert (ob : Orderbook) (o : LimitOrder) (hInv : Inv ob)
    (hfresh : OrdersById.get ob.ordersById o.id = none) :
    Inv (ob.insert o) := by
  have hnotmem : o.id ∉ ob.allIds := by
    intro h
    have := orderbook_mem_allIds_isSome ob o.id hInv h
    rw [hfresh] at this
    simp at this
  refine ⟨?_, ?_, ?_, ?_, ?_⟩
  · intro s
    by_cases hs : s = o.side
    · subst hs
      rw [Orderbook.insert, ordersBySide_setSide_self]
      exact priceMap_push_pairwise _ _ _ (hInv.sorted o.side)
    · rw [Orderbook.insert, ordersBySide_setSide_other _ _ _ _ hs]
      exact hInv.sorted s
  · intro s e he
    by_cases hs : s = o.side
    · subst hs
      rw [Orderbook.insert, ordersBySide_setSide_self] at he
      exact priceMap_push_ne_nil _ _ _ (hInv.ne o.side) e he
    · rw [Orderbook.insert, ordersBySide_setSide_other _ _ _ _ hs] at he
      exact hInv.ne s e he
  · rcases priceMap_push_ids (ob.ordersBySide.side o.side) o.unitPrice o.id
      with ⟨u, v, hpush, hold⟩
    have hperm1 : (ob.insert o).allIds.Perm
        ((u ++ o.id :: v) ++
          PriceMap.ids (ob.ordersBySide.side o.side.opposite)) := by
      rw [Orderbook.insert, ← hpush]
      exact allIds_setSide _ _ _ _
    have hperm2 : ob.allIds.Perm
        ((u ++ v) ++
          PriceMap.ids (ob.ordersBySide.side o.side.opposite)) := by
      rw [← hold]
      exact allIds_by_side ob o.side
    refine hperm1.nodup_iff.mpr ?_
    have hmid : ((u ++ o.id :: v) ++
        PriceMap.ids (ob.ordersBySide.side o.side.opposite)).Perm
        (o.id :: ((u ++ v) ++
          PriceMap.ids (ob.ordersBySide.side o.side.opposite))) := by
      rw [List.append_assoc, List.append_assoc]
      exact List.perm_middle
    refine hmid.nodup_iff.mpr ?_
    rw [List.nodup_cons]
    constructor
    · intro hc
      exact hnotmem (hperm2.mem_iff.mpr hc)
    · exact hperm2.nodup_iff.mp hInv.nodupIds
  · intro oid w hget
    by_cases hk : oid = o.id
    · subst hk
      rw [Orderbook.insert] at hget
      simp only at hget
      rw [ordersById_get_insert_self] at hget
      rcases Option.some.inj hget with rfl
      refine ⟨rfl, ?_⟩
      rw [Orderbook.insert, ordersBySide_setSide_self,
        priceMap_push_levelAt_self _ _ _ (hInv.sorted o.side)]
      exact List.mem_append_right _ (List.mem_singleton.mpr rfl)
    · rw [Orderbook.insert] at hget
      simp only at hget
      rw [ordersById_get_insert_ne _ _ _ _ hk] at hget
      rcases hInv.located oid w hget with ⟨hid, hmem⟩
      refine ⟨hid, ?_⟩
      rw [Orderbook.insert]
      by_cases hs : w.side = o.side
      · rw [hs, ordersBySide_setSide_self]
        by_cases hp : w.unitPrice = o.unitPrice
        · rw [hp, priceMap_push_levelAt_self _ _ _ (hInv.sorted o.side)]
          rw [hs, hp] at hmem
          exact List.mem_append_left _ hmem
        · rw [priceMap_push_levelAt_ne _ _ _ _ hp]
          rw [hs] at hmem
          exact hmem
      · rw [ordersBySide_setSide_other _ _ _ _ hs]
        exact hmem
  · intro s e he k hk
    by_cases hs : s = o.side
    · subst hs
      rw [Orderbook.insert, ordersBySide_setSide_self] at he
      rcases priceMap_push_entries _ _ _ e he k hk with ⟨rfl, hp⟩ | ⟨e₀, he₀, he₀1, hk₀⟩
      · refine ⟨o, ?_, rfl, hp.symm⟩
        rw [Orderbook.insert]
        simp only
        rw [ordersById_get_insert_self]
      · rcases hInv.placed o.side e₀ he₀ k hk₀ with ⟨w, hw, hws, hwp⟩
        have hkne : k ≠ o.id := by
          intro hh
          rw [hh, hfresh] at hw
          exact Option.noConfusion hw
        refine ⟨w, ?_, hws, by rw [hwp, he₀1]⟩
        rw [Orderbook.insert]
        simp only
        rw [ordersById_get_insert_ne _ _ _ _ hkne]
        exact hw
    · rw [Orderbook.insert, ordersBySide_setSide_other _ _ _ _ hs] at he
      rcases hInv.placed s e he k hk with ⟨w, hw, hws, hwp⟩
      have hkne : k ≠ o.id := by
        intro hh
        rw [hh, hfresh] at hw
        exact Option.noConfusion hw
      refine ⟨w, ?_, hws, hwp⟩
      rw [Orderbook.insert]
      simp only
      rw [ordersById_get_insert_ne _ _ _ _ hkne]
      exact hw


theorem priceMap_removeId_ids_rev (m : PriceMap) (p : Price)
    (oid : OrderId) (hs : m.Pairwise (fun a b => a.1 < b.1))
    (hmem : oid ∈ PriceMap.levelAt m p) :
    ∃ m', PriceMap.removeId m p oid = some m' ∧
      ∃ u v, PriceMap.ids m.reverse = u ++ oid :: v ∧
        PriceMap.ids m'.reverse = u ++ v := by
  rcases priceMap_removeId_struct m p oid hs hmem with
    ⟨pre, l, post, hsplit, hpre, hlev, hmeml, hrem⟩
  by_cases hlen : l.length = 1
  · rcases List.length_eq_one.mp hlen with ⟨a, rfl⟩
    rcases List.mem_singleton.mp hmeml with rfl
    rw [if_pos hlen] at hrem
    refine ⟨pre ++ post, hrem, PriceMap.ids post.reverse,
      PriceMap.ids pre.reverse, ?_, ?_⟩
    · rw [hsplit, List.reverse_append, List.reverse_cons,
        priceMap_ids_append, priceMap_ids_append, priceMap_ids_cons]
      simp [PriceMap.ids]
    · rw [List.reverse_append, priceMap_ids_append]
  · rw [if_neg hlen] at hrem
    rcases List.exists_erase_eq hmeml with ⟨u₀, v₀, _, hud, herase⟩
    refine ⟨pre ++ (p, l.erase oid) :: post, hrem,
      PriceMap.ids post.reverse ++ u₀, v₀ ++ PriceMap.ids pre.reverse,
      ?_, ?_⟩
    · rw [hsplit, List.reverse_append, List.reverse_cons,
        priceMap_ids_append, priceMap_ids_append, priceMap_ids_cons]
      rw [hud]
      simp [PriceMap.ids, List.append_assoc]
    · rw [List.reverse_append, List.reverse_cons, priceMap_ids_append,
        priceMap_ids_append, priceMap_ids_cons]
      rw [herase]
      simp [PriceMap.ids, List.append_assoc]

theorem orderbook_remove_spec (ob : Orderbook) (oid : OrderId)
    (o : LimitOrder) (hInv : Inv ob)
    (hget : OrdersById.get ob.ordersById oid = some o) :
    ∃ ob', ob.remove oid = some (some o, ob') ∧ Inv ob' ∧
      OrdersById.get ob'.ordersById oid = none ∧
      (∀ k, k ≠ oid →
        OrdersById.get ob'.ordersById k = OrdersById.get ob.ordersById k) ∧
      ob'.ordersById.length < ob.ordersById.length ∧
      (∀ s, s ≠ o.side →
        ob'.ordersBySide.side s = ob.ordersBySide.side s) ∧
      PriceMap.removeId (ob.ordersBySide.side o.side) o.unitPrice oid =
        some (ob'.ordersBySide.side o.side) := by
  rcases hInv.located oid o hget with ⟨hid, hmem⟩
  rcases priceMap_removeId_spec (ob.ordersBySide.side o.side) o.unitPrice
    oid (hInv.sorted o.side) hmem with
    ⟨m', hrem, hlevp, hlevne, ⟨u, v, hidsold, hidsnew⟩, hsorted', hne',
      hplaced'⟩
  refine ⟨⟨ob.ordersById.filter (fun e => !(e.1 = oid : Bool)),
    ob.ordersBySide.setSide o.side m'⟩, ?_, ?_, ?_, ?_, ?_, ?_, ?_⟩
  · simp only [Orderbook.remove,
      ordersById_remove_eq ob.ordersById oid o hget, hid, hrem]
  · have hpermold : ob.allIds.Perm
        ((u ++ oid :: v) ++
          PriceMap.ids (ob.ordersBySide.side o.side.opposite)) := by
      rw [← hidsold]
      exact allIds_by_side ob o.side
    have hpermnew :
        (Orderbook.allIds
          ⟨ob.ordersById.filter (fun e => !(e.1 = oid : Bool)),
            ob.ordersBySide.setSide o.side m'⟩).Perm
        ((u ++ v) ++
          PriceMap.ids (ob.ordersBySide.side o.side.opposite)) := by
      rw [← hidsnew]
      exact allIds_setSide _ _ _ _
    have holdmid : ob.allIds.Perm
        (oid :: ((u ++ v) ++
          PriceMap.ids (ob.ordersBySide.side o.side.opposite))) := by
      refine hpermold.trans ?_
      rw [List.append_assoc, List.append_assoc]
      exact List.perm_middle
    refine ⟨?_, ?_, ?_, ?_, ?_⟩
    · intro s
      by_cases hsd : s = o.side
      · subst hsd
        rw [ordersBySide_setSide_self]
        exact hsorted'
      · rw [ordersBySide_setSide_other _ _ _ _ hsd]
        exact hInv.sorted s
    · intro s e he
      by_cases hsd : s = o.side
      · subst hsd
        rw [ordersBySide_setSide_self] at he
        exact hne' (hInv.ne o.side) e he
      · rw [ordersBySide_setSide_other _ _ _ _ hsd] at he
        exact hInv.ne s e he
    · refine hpermnew.nodup_iff.mpr ?_
      have := holdmid.nodup_iff.mp hInv.nodupIds
      rw [List.nodup_cons] at this
      exact this.2
    · intro k w hget'
      have hkne : k ≠ oid := by
        intro hh
        rw [hh, ordersById_get_filterKey_self] at hget'
        exact Option.noConfusion hget'
      rw [ordersById_get_filterKey_ne _ _ _ hkne] at hget'
      rcases hInv.located k w hget' with ⟨hwid, hwmem⟩
      refine ⟨hwid, ?_⟩
      by_cases hsd : w.side = o.side
      · rw [hsd, ordersBySide_setSide_self]
        by_cases hpd : w.unitPrice = o.unitPrice
        · rw [hpd, hlevp]
          rw [hsd, hpd] at hwmem
          have hkneq : k ≠ oid := hkne
          rw [List.mem_erase_of_ne hkneq]
          exact hwmem
        · rw [hlevne _ hpd]
          rw [hsd] at hwmem
          exact hwmem
      · rw [ordersBySide_setSide_other _ _ _ _ hsd]
        exact hwmem
    · intro s e he k hk
      by_cases hsd : s = o.side
      · subst hsd
        rw [ordersBySide_setSide_self] at he
        rcases hplaced' e he k hk with ⟨e₀, he₀, he₀1, hk₀⟩
        rcases hInv.placed o.side e₀ he₀ k hk₀ with ⟨w, hw, hws, hwp⟩
        have hkne : k ≠ oid := by
          intro hh
          -- oid sits in the new side map, but it was removed once and
          -- appears only once in the whole book
          have hmemnew : oid ∈ PriceMap.ids m' := by
            rw [priceMap_mem_ids]
            exact ⟨e, he, hh ▸ hk⟩
          rw [hidsnew] at hmemnew
          have hnodup : (oid :: ((u ++ v) ++
              PriceMap.ids (ob.ordersBySide.side o.side.opposite))).Nodup :=
            holdmid.nodup_iff.mp hInv.nodupIds
          rw [List.nodup_cons] at hnodup
          exact hnodup.1 (List.mem_append_left _ hmemnew)
        refine ⟨w, ?_, hws, by rw [hwp, he₀1]⟩
        rw [ordersById_get_filterKey_ne _ _ _ hkne]
        exact hw
      · rw [ordersBySide_setSide_other _ _ _ _ hsd] at he
        rcases hInv.placed s e he k hk with ⟨w, hw, hws, hwp⟩
        have hkne : k ≠ oid := by
          intro hh
          have hmemother : oid ∈
              PriceMap.ids (ob.ordersBySide.side s) := by
            rw [priceMap_mem_ids]
            exact ⟨e, he, hh ▸ hk⟩
          have hsopp : s = o.side.opposite := by
            revert hsd
            cases o.side <;> cases s <;> decide
          have hnodup : (oid :: ((u ++ v) ++
              PriceMap.ids (ob.ordersBySide.side o.side.opposite))).Nodup :=
            holdmid.nodup_iff.mp hInv.nodupIds
          rw [List.nodup_cons] at hnodup
          rw [hsopp] at hmemother
          exact hnodup.1 (List.mem_append_right _ hmemother)
        refine ⟨w, ?_, hws, hwp⟩
        rw [ordersById_get_filterKey_ne _ _ _ hkne]
        exact hw
  · exact ordersById_get_filterKey_self _ _
  · intro k hk
    exact ordersById_get_filterKey_ne _ _ _ hk
  · exact ordersById_filter_length _ _ (by rw [hget]; rfl)
  · intro s hs
    exact ordersBySide_setSide_other _ _ _ _ hs
  · rw [ordersBySide_setSide_self]
    exact hrem


theorem list_map_id_of {α : Type} (f : α → α) (t : List α)
    (h : ∀ e ∈ t, f e = e) : t.map f = t := by
  induction t with
  | nil => rfl
  | cons e t ih =>
    rw [List.map_cons, h e (by simp), ih (fun e' he' => h e' (by simp [he']))]

theorem priceMap_removeId_append (pre rest : PriceMap) (p : Price)
    (oid : OrderId) (h : ∀ e ∈ pre, e.1 ≠ p) :
    PriceMap.removeId (pre ++ rest) p oid =
      (PriceMap.removeId rest p oid).map (fun m' => pre ++ m') := by
  induction pre with
  | nil =>
    rw [List.nil_append]
    cases hr : PriceMap.removeId rest p oid <;> simp [hr]
  | cons e t ih =>
    rcases e with ⟨q, l⟩
    rw [List.cons_append, PriceMap.removeId,
      if_neg (fun hh => h (q, l) (by simp) hh.symm),
      ih (fun e' he' => h e' (by simp [he']))]
    cases PriceMap.removeId rest p oid <;> simp

/-- Orderbook::pop on a book satisfying the invariant agrees with
Orderbook::remove applied to the best id of the side. -/
theorem orderbook_pop_spec (ob : Orderbook) (side : OrderSide)
    (hInv : Inv ob) :
    (ob.ordersBySide.side side = [] ∧ ob.pop side = .empty) ∨
      ∃ oid w ob', ob.pop side = .ok w ob' ∧
        OrdersById.get ob.ordersById oid = some w ∧
        ob.remove oid = some (some w, ob') ∧
        ob.ordersBySide.peek side = some oid := by
  cases hm : ob.ordersBySide.side side with
  | nil =>
    left
    refine ⟨rfl, ?_⟩
    cases side <;> simp_all [Orderbook.pop]
  | cons ent t =>
    right
    rcases ent with ⟨p, l⟩
    have hlne : l ≠ [] := hInv.ne side (p, l) (by rw [hm]; simp)
    cases side with
    | ask =>
      rcases l with _ | ⟨oid, tail⟩
      · exact absurd rfl hlne
      have hent : (p, oid :: tail) ∈ ob.ordersBySide.side .ask := by
        rw [hm]
        exact List.mem_cons_self _ _
      rcases hInv.placed .ask (p, oid :: tail) hent oid (by simp) with
        ⟨w, hw, hwside, hwprice⟩
      rcases hInv.located oid w hw with ⟨hwid, _⟩
      have htkeys : ∀ e ∈ t, ¬ e.1 = p := by
        intro e he
        have hs := hInv.sorted .ask
        rw [hm, List.pairwise_cons] at hs
        exact ne_of_gt (hs.1 e he)
      have hremid : PriceMap.removeId (ob.ordersBySide.side .ask) p oid =
          some (if (oid :: tail).length = 1 then t else (p, tail) :: t) := by
        rw [hm, PriceMap.removeId, if_pos rfl]
        by_cases hlen : (oid :: tail).length = 1
        · rw [if_pos hlen, if_pos hlen]
        · rw [if_neg hlen, if_neg hlen]
          have : (oid :: tail).indexOf? oid = some 0 := by
            rw [List.indexOf?_cons, if_pos (by simp)]
          rw [this]
          simp
      have hmpop : (if (oid :: tail).length = 1 then
          ((p, oid :: tail) :: t).filter (fun e => !(e.1 = p : Bool))
        else ((p, oid :: tail) :: t).map
            (fun e => if e.1 = p then (p, tail) else e)) =
          (if (oid :: tail).length = 1 then t else (p, tail) :: t) := by
        by_cases hlen : (oid :: tail).length = 1
        · rw [if_pos hlen, if_pos hlen, List.filter_cons,
            if_neg (by simp)]
          rw [List.filter_eq_self.mpr]
          intro e he
          simp [htkeys e he]
        · rw [if_neg hlen, if_neg hlen, List.map_cons, if_pos rfl]
          rw [list_map_id_of _ t]
          intro e he
          rw [if_neg (htkeys e he)]
      refine ⟨oid, w, ⟨ob.ordersById.filter (fun e => !(e.1 = oid : Bool)),
        ob.ordersBySide.setSide .ask
          (if (oid :: tail).length = 1 then t else (p, tail) :: t)⟩,
        ?_, hw, ?_, ?_⟩
      · rw [Orderbook.pop]
        simp only [hm, List.head?_cons,
          ordersById_remove_eq ob.ordersById oid w hw, hmpop]
      · rw [Orderbook.remove, ordersById_remove_eq ob.ordersById oid w hw]
        simp only [hwid, hwside, hwprice, hremid]
      · rw [OrdersBySide.peek, OrdersBySide.iter]
        show ((ob.ordersBySide.side .ask).map (fun e => e.2)).flatten.head?
          = some oid
        rw [hm]
        simp
    | bid =>
      have hmne : ob.ordersBySide.side OrderSide.bid ≠ [] := by
        rw [hm]
        simp
      obtain ⟨lp, ll, hlast⟩ : ∃ lp ll,
          (ob.ordersBySide.side OrderSide.bid).getLast hmne = (lp, ll) :=
        ⟨_, _, rfl⟩
      have hdecomp :
          (ob.ordersBySide.side OrderSide.bid).dropLast ++ [(lp, ll)] =
            ob.ordersBySide.side OrderSide.bid := by
        rw [← hlast]
        exact List.dropLast_append_getLast hmne
      have hlastmem : (lp, ll) ∈ ob.ordersBySide.side OrderSide.bid := by
        rw [← hlast]
        exact List.getLast_mem hmne
      have hllne : ll ≠ [] := hInv.ne .bid (lp, ll) hlastmem
      rcases ll with _ | ⟨oid, tail⟩
      · exact absurd rfl hllne
      rcases hInv.placed .bid (lp, oid :: tail) hlastmem oid (by simp) with
        ⟨w, hw, hwside, hwprice⟩
      rcases hInv.located oid w hw with ⟨hwid, _⟩
      have hprekeys : ∀ e ∈ (ob.ordersBySide.side OrderSide.bid).dropLast,
          ¬ e.1 = lp := by
        intro e he
        have hs := hInv.sorted .bid
        rw [← hdecomp, List.pairwise_append] at hs
        exact ne_of_lt (hs.2.2 e he (lp, oid :: tail) (by simp))
      have hremid :
          PriceMap.removeId (ob.ordersBySide.side OrderSide.bid) lp oid =
            some (if (oid :: tail).length = 1 then
                (ob.ordersBySide.side OrderSide.bid).dropLast
              else (ob.ordersBySide.side OrderSide.bid).dropLast ++
                [(lp, tail)]) := by
        nth_rewrite 1 [← hdecomp]
        rw [priceMap_removeId_append _ _ _ _ hprekeys]
        rw [PriceMap.removeId, if_pos rfl]
        by_cases hlen : (oid :: tail).length = 1
        · rw [if_pos hlen, if_pos hlen]
          simp
        · rw [if_neg hlen, if_neg hlen]
          have hidx : (oid :: tail).indexOf? oid = some 0 := by
            rw [List.indexOf?_cons, if_pos (by simp)]
          rw [hidx]
          simp
      have hmpop : (if (oid :: tail).length = 1 then
          (ob.ordersBySide.side OrderSide.bid).filter
            (fun e => !(e.1 = lp : Bool))
        else (ob.ordersBySide.side OrderSide.bid).map
            (fun e => if e.1 = lp then (lp, tail) else e)) =
          (if (oid :: tail).length = 1 then
              (ob.ordersBySide.side OrderSide.bid).dropLast
            else (ob.ordersBySide.side OrderSide.bid).dropLast ++
              [(lp, tail)]) := by
        by_cases hlen : (oid :: tail).length = 1
        · rw [if_pos hlen, if_pos hlen]
          nth_rewrite 1 [← hdecomp]
          rw [List.filter_append,
            List.filter_eq_self.mpr (fun e he => by simp [hprekeys e he])]
          simp
        · rw [if_neg hlen, if_neg hlen]
          nth_rewrite 1 [← hdecomp]
          rw [List.map_append,
            list_map_id_of _ _ (fun e he => by rw [if_neg (hprekeys e he)])]
          simp
      refine ⟨oid, w, ⟨ob.ordersById.filter (fun e => !(e.1 = oid : Bool)),
        ob.ordersBySide.setSide .bid
          (if (oid :: tail).length = 1 then
              (ob.ordersBySide.side OrderSide.bid).dropLast
            else (ob.ordersBySide.side OrderSide.bid).dropLast ++
              [(lp, tail)])⟩, ?_, hw, ?_, ?_⟩
      · rw [Orderbook.pop]
        simp only [List.getLast?_eq_getLast _ hmne, hlast,
          ordersById_remove_eq ob.ordersById oid w hw, hmpop]
      · rw [Orderbook.remove, ordersById_remove_eq ob.ordersById oid w hw]
        simp only [hwid, hwside, hwprice, hremid]
      · rw [OrdersBySide.peek, OrdersBySide.iter]
        show ((ob.ordersBySide.side OrderSide.bid).reverse.map
          (fun e => e.2)).flatten.head? = some oid
        rw [← hdecomp, List.reverse_append]
        simp


theorem level_sublist_allIds (ob : Orderbook) (s : OrderSide) (p : Price)
    (oid : OrderId)
    (hmem : oid ∈ PriceMap.levelAt (ob.ordersBySide.side s) p) :
    (PriceMap.levelAt (ob.ordersBySide.side s) p).Sublist ob.allIds := by
  set L := PriceMap.levelAt (ob.ordersBySide.side s) p with hL
  have hne : L ≠ [] := by
    intro hh
    rw [hh] at hmem
    simp at hmem
  have hent : (p, L) ∈ ob.ordersBySide.side s := priceMap_levelAt_entry _ _ hne
  rcases List.append_of_mem hent with ⟨pre, post, hsplit⟩
  have hids : PriceMap.ids (ob.ordersBySide.side s) =
      PriceMap.ids pre ++ (L ++ PriceMap.ids post) := by
    rw [hsplit, priceMap_ids_append, priceMap_ids_cons]
  have hsub1 : L.Sublist (PriceMap.ids (ob.ordersBySide.side s)) := by
    rw [hids]
    have hinf := (List.infix_append (PriceMap.ids pre) L
      (PriceMap.ids post)).sublist
    rw [List.append_assoc] at hinf
    exact hinf
  exact hsub1.trans (by
    rw [orderbook_allIds_eq]
    cases s
    · exact List.sublist_append_left _ _
    · exact List.sublist_append_right _ _)


/-- Inv implies the claim-level index-parity property. -/
theorem inv_indexParity (ob : Orderbook) (hInv : Inv ob) :
    IndexParity ob := by
  constructor
  · intro oid o hget
    rcases hInv.located oid o hget with ⟨hid, hmem⟩
    have hsub := level_sublist_allIds ob o.side o.unitPrice oid hmem
    have hall : oid ∈ ob.allIds := hsub.mem hmem
    have hcnt : ob.allIds.count oid = 1 :=
      List.count_eq_one_of_mem hInv.nodupIds hall
    constructor
    · have hle : (PriceMap.levelAt (ob.ordersBySide.side o.side)
          o.unitPrice).count oid ≤ 1 := by
        rw [← hcnt]
        exact hsub.count_le oid
      have hge : 1 ≤ (PriceMap.levelAt (ob.ordersBySide.side o.side)
          o.unitPrice).count oid := List.one_le_count_iff.mpr hmem
      omega
    · exact hcnt
  · intro oid hmem
    exact orderbook_mem_allIds_isSome ob oid hInv hmem

/-- C5: the orderbook operations preserve the structural invariant, and
the invariant yields the two claim-level properties: index parity and
no dangling levels. -/
theorem c5_operations_preserve_invariants :
    Inv Orderbook.new ∧
      (∀ (ob : Orderbook) (o : LimitOrder), Inv ob →
        OrdersById.get ob.ordersById o.id = none → Inv (ob.insert o)) ∧
      (∀ (ob : Orderbook) (oid : OrderId), Inv ob →
        ∃ res, ob.remove oid = some res ∧ Inv res.2) ∧
      (∀ (ob : Orderbook) (side : OrderSide), Inv ob →
        ob.pop side ≠ .panic ∧
          ∀ o ob', ob.pop side = .ok o ob' → Inv ob') ∧
      (∀ ob : Orderbook, Inv ob → IndexParity ob ∧ NoDanglingLevels ob) := by
  refine ⟨inv_empty, ?_, ?_, ?_, ?_⟩
  · intro ob o hInv hfresh
    exact inv_insert ob o hInv hfresh
  · intro ob oid hInv
    cases hget : OrdersById.get ob.ordersById oid with
    | none =>
      refine ⟨(none, ob), ?_, hInv⟩
      rw [Orderbook.remove, OrdersById.remove, hget]
    | some o =>
      rcases orderbook_remove_spec ob oid o hInv hget with
        ⟨ob', hrem, hInv', _⟩
      exact ⟨(some o, ob'), hrem, hInv'⟩
  · intro ob side hInv
    rcases orderbook_pop_spec ob side hInv with ⟨_, hpop⟩ | ⟨oid, w, ob', hpop, hget, hrem, _⟩
    · constructor
      · rw [hpop]
        exact fun hh => PopResult.noConfusion hh
      · intro o ob' hh
        rw [hpop] at hh
        exact absurd hh (fun hh => PopResult.noConfusion hh)
    · rcases orderbook_remove_spec ob oid w hInv hget with
        ⟨ob'', hrem', hInv', _⟩
      rw [hrem] at hrem'
      rcases Option.some.inj hrem' with heq
      have hob : ob' = ob'' := congrArg Prod.snd heq
      constructor
      · rw [hpop]
        exact fun hh => PopResult.noConfusion hh
      · intro o₀ ob₀ hh
        rw [hpop] at hh
        rcases PopResult.ok.inj hh with ⟨_, rfl⟩
        rw [hob]
        exact hInv'
  · intro ob hInv
    exact ⟨inv_indexParity ob hInv, hInv.ne⟩

/-- Witness for C5: the empty book satisfies the invariant, inserting a
fresh order preserves it, and the claim-level properties hold there. -/
theorem c5_operations_preserve_invariants_witness :
    Inv (Orderbook.new.insert ⟨1, .ask, 10, false, 10, 0, .opened⟩) ∧
      IndexParity bookAsk10 ∧ NoDanglingLevels bookAsk10 := by
  have h1 := c5_operations_preserve_invariants.2.1 Orderbook.new
    ⟨1, .ask, 10, false, 10, 0, .opened⟩
    c5_operations_preserve_invariants.1 rfl
  refine ⟨h1, ?_⟩
  exact c5_operations_preserve_invariants.2.2.2.2 bookAsk10 h1


/-! Price-time-priority ordering machinery. -/

theorem pairwise_mem_split {α : Type} (R : α → α → Prop) (m : List α)
    (hp : m.Pairwise R) (ea eb : α) (ha : ea ∈ m) (hb : eb ∈ m)
    (hne : ea ≠ eb) (hnR : ¬ R eb ea) :
    ∃ m₁ m₂ m₃, m = m₁ ++ ea :: m₂ ++ eb :: m₃ := by
  induction m with
  | nil => simp at ha
  | cons x t ih =>
    rw [List.pairwise_cons] at hp
    rcases List.mem_cons.mp ha with ha0 | ha0
    · subst ha0
      rcases List.mem_cons.mp hb with hb0 | hb0
      · exact absurd hb0.symm hne
      · rcases List.append_of_mem hb0 with ⟨s, t', rfl⟩
        exact ⟨[], s, t', by simp⟩
    · rcases List.mem_cons.mp hb with hb0 | hb0
      · subst hb0
        exact absurd (hp.1 ea ha0) hnR
      · rcases ih hp.2 ha0 hb0 with ⟨m₁, m₂, m₃, rfl⟩
        exact ⟨x :: m₁, m₂, m₃, by simp⟩

theorem before_ids_of_split (m m₁ m₂ m₃ : PriceMap) (pa pb : Price)
    (La Lb : Level) (a b : OrderId)
    (hsplit : m = m₁ ++ (pa, La) :: m₂ ++ (pb, Lb) :: m₃)
    (ha : a ∈ La) (hb : b ∈ Lb) : Before (PriceMap.ids m) a b := by
  rcases List.append_of_mem ha with ⟨u, v, rfl⟩
  rcases List.append_of_mem hb with ⟨s, t, rfl⟩
  refine ⟨PriceMap.ids m₁ ++ u,
    v ++ PriceMap.ids m₂ ++ s,
    t ++ PriceMap.ids m₃, ?_⟩
  rw [hsplit]
  simp [PriceMap.ids, List.append_assoc]

theorem before_ids_of_level (m : PriceMap) (p : Price) (L : Level)
    (a b : OrderId) (hent : (p, L) ∈ m) (hbefore : Before L a b) :
    Before (PriceMap.ids m) a b := by
  rcases List.append_of_mem hent with ⟨m₁, m₂, rfl⟩
  rcases hbefore with ⟨k₁, k₂, k₃, rfl⟩
  refine ⟨PriceMap.ids m₁ ++ k₁, k₂, k₃ ++ PriceMap.ids m₂, ?_⟩
  simp [PriceMap.ids, List.append_assoc]

theorem ordersBySide_iter_ask (s : OrdersBySide) :
    s.iter .ask = PriceMap.ids (s.side .ask) := rfl

theorem ordersBySide_iter_bid (s : OrdersBySide) :
    s.iter .bid = PriceMap.ids ((s.side .bid).reverse) := rfl


/-- C2: peek yields the first element of the price-time iteration;
insert appends the new id at the FIFO tail of its own price level and
leaves every other level and the other side untouched; and any maker at
a strictly better price (lower for asks, higher for bids), or at the
same price but earlier in the level FIFO, occurs strictly earlier in
the iteration and is therefore peeked first. -/
theorem c2_price_time_priority (ob : Orderbook) (side : OrderSide)
    (o : LimitOrder) (a b : OrderId) (oa obr : LimitOrder)
    (hInv : Inv ob) :
    (ob.ordersBySide.peek side = (ob.ordersBySide.iter side).head?) ∧
      (PriceMap.levelAt ((ob.insert o).ordersBySide.side o.side)
          o.unitPrice =
        PriceMap.levelAt (ob.ordersBySide.side o.side) o.unitPrice ++
          [o.id] ∧
        (∀ r, r ≠ o.unitPrice →
          PriceMap.levelAt ((ob.insert o).ordersBySide.side o.side) r =
            PriceMap.levelAt (ob.ordersBySide.side o.side) r) ∧
        ∀ s, s ≠ o.side →
          (ob.insert o).ordersBySide.side s = ob.ordersBySide.side s) ∧
      (OrdersById.get ob.ordersById a = some oa →
        OrdersById.get ob.ordersById b = some obr →
        oa.side = side → obr.side = side →
        ((side = .ask ∧ oa.unitPrice < obr.unitPrice) ∨
          (side = .bid ∧ obr.unitPrice < oa.unitPrice) ∨
          (oa.unitPrice = obr.unitPrice ∧
            Before
              (PriceMap.levelAt (ob.ordersBySide.side side) oa.unitPrice)
              a b)) →
        Before (ob.ordersBySide.iter side) a b) := by
  refine ⟨rfl, ?_, ?_⟩
  · refine ⟨?_, ?_, ?_⟩
    · rw [Orderbook.insert]
      simp only
      rw [ordersBySide_setSide_self]
      exact priceMap_push_levelAt_self _ _ _ (hInv.sorted o.side)
    · intro r hr
      rw [Orderbook.insert]
      simp only
      rw [ordersBySide_setSide_self]
      exact priceMap_push_levelAt_ne _ _ _ _ hr
    · intro s hs
      rw [Orderbook.insert]
      simp only
      rw [ordersBySide_setSide_other _ _ _ _ hs]
  · intro hga hgb hsa hsb hpriority
    rcases hInv.located a oa hga with ⟨hida, hmema⟩
    rcases hInv.located b obr hgb with ⟨hidb, hmemb⟩
    rw [hsa] at hmema
    rw [hsb] at hmemb
    have hla : a ∈ PriceMap.levelAt (ob.ordersBySide.side side)
        oa.unitPrice := hmema
    have hlb : b ∈ PriceMap.levelAt (ob.ordersBySide.side side)
        obr.unitPrice := hmemb
    have henta : (oa.unitPrice,
        PriceMap.levelAt (ob.ordersBySide.side side) oa.unitPrice) ∈
        ob.ordersBySide.side side := by
      refine priceMap_levelAt_entry _ _ ?_
      intro hh
      rw [hh] at hla
      simp at hla
    have hentb : (obr.unitPrice,
        PriceMap.levelAt (ob.ordersBySide.side side) obr.unitPrice) ∈
        ob.ordersBySide.side side := by
      refine priceMap_levelAt_entry _ _ ?_
      intro hh
      rw [hh] at hlb
      simp at hlb
    rcases hpriority with ⟨hside, hlt⟩ | ⟨hside, hlt⟩ | ⟨heq, hbef⟩
    · -- ask side, strictly lower price first
      subst hside
      rcases pairwise_mem_split _ _ (hInv.sorted .ask) _ _ henta hentb
        (by
          intro hh
          exact absurd (congrArg Prod.fst hh) (ne_of_lt hlt))
        (by
          intro hh
          exact absurd hh (not_lt.mpr (le_of_lt hlt))) with
        ⟨m₁, m₂, m₃, hsplit⟩
      rw [ordersBySide_iter_ask]
      exact before_ids_of_split _ m₁ m₂ m₃ _ _ _ _ _ _ hsplit hla hlb
    · -- bid side, strictly higher price first
      subst hside
      have hrev : (ob.ordersBySide.side OrderSide.bid).reverse.Pairwise
          (fun x y => y.1 < x.1) := by
        rw [List.pairwise_reverse]
        exact hInv.sorted .bid
      rcases pairwise_mem_split _ _ hrev _ _
        (List.mem_reverse.mpr henta) (List.mem_reverse.mpr hentb)
        (by
          intro hh
          exact absurd (congrArg Prod.fst hh) (ne_of_gt hlt))
        (by
          intro hh
          exact absurd hh (not_lt.mpr (le_of_lt hlt))) with
        ⟨m₁, m₂, m₃, hsplit⟩
      rw [ordersBySide_iter_bid]
      exact before_ids_of_split _ m₁ m₂ m₃ _ _ _ _ _ _ hsplit hla hlb
    · -- same price, earlier FIFO position first
      cases side with
      | ask =>
        rw [ordersBySide_iter_ask]
        exact before_ids_of_level _ _ _ _ _ henta hbef
      | bid =>
        rw [ordersBySide_iter_bid]
        exact before_ids_of_level _ _ _ _ _
          (List.mem_reverse.mpr henta) hbef


/-- Witness for C2 on a two-level ask book: the better-priced maker
(id 1 at 10) comes before the worse one (id 3 at 12). -/
theorem c2_price_time_priority_witness :
    bookTwoAsks.ordersBySide.peek .ask =
        (bookTwoAsks.ordersBySide.iter .ask).head? ∧
      Before (bookTwoAsks.ordersBySide.iter .ask) 1 3 := by
  have hInv : Inv bookTwoAsks :=
    inv_insert _ _ (inv_insert _ _ inv_empty rfl)
      (by with_unfolding_all rfl)
  have h := c2_price_time_priority bookTwoAsks .ask
    ⟨9, .ask, 12, false, 5, 0, .opened⟩ 1 3
    ⟨1, .ask, 10, false, 5, 0, .opened⟩
    ⟨3, .ask, 12, false, 5, 0, .opened⟩ hInv
  exact ⟨h.1, h.2.2 (by with_unfolding_all rfl) (by with_unfolding_all rfl)
    rfl rfl (Or.inl ⟨rfl, by norm_num⟩)⟩


/-! Peek and iterOrders coherence. -/

theorem iter_mem_allIds (ob : Orderbook) (side : OrderSide)
    (oid : OrderId) (h : oid ∈ ob.ordersBySide.iter side) :
    oid ∈ ob.allIds := by
  cases side
  · rw [ordersBySide_iter_ask] at h
    rw [orderbook_allIds_eq]
    exact List.mem_append_left _ h
  · rw [ordersBySide_iter_bid] at h
    rw [orderbook_allIds_eq]
    exact List.mem_append_right _
      ((priceMap_ids_reverse_perm _).mem_iff.mp h)

theorem orderbook_peek_eq (ob : Orderbook) (side : OrderSide)
    (hInv : Inv ob) :
    ob.peek side = some ((ob.iterOrders side).head?) := by
  cases hit : ob.ordersBySide.iter side with
  | nil =>
    rw [Orderbook.peek, OrdersBySide.peek, hit, Orderbook.iterOrders, hit]
    rfl
  | cons oid rest =>
    have hmem : oid ∈ ob.allIds :=
      iter_mem_allIds ob side oid (by rw [hit]; simp)
    obtain ⟨w, hw⟩ := Option.isSome_iff_exists.mp
      (orderbook_mem_allIds_isSome ob oid hInv hmem)
    rw [Orderbook.peek, OrdersBySide.peek, hit, Orderbook.iterOrders, hit]
    simp [hw]

/-- A post-only taker is neither fill-or-kill nor immediate-or-cancel,
and is a GoodTillCancel limit. -/
theorem post_only_shape (taker : Order) (hpo : taker.isPostOnly = true) :
    taker.isFillOrKill = false ∧ taker.isImmediateOrCancel = false ∧
      ∃ p pb, taker.type_ = .limit p (.goodTillCancel true) pb := by
  rcases taker with ⟨id, side, type_, status⟩
  rcases type_ with ⟨p, tif, pb⟩ | ⟨aon, pb⟩
  · rcases tif with po | aon
    · rw [Order.isPostOnly] at hpo
      simp only at hpo
      subst hpo
      exact ⟨rfl, rfl, p, pb, rfl⟩
    · simp [Order.isPostOnly] at hpo
  · simp [Order.isPostOnly] at hpo

/-- C7: PostOnly cancels a post-only incoming order exactly when the
best opposite maker matches it; a post-only GTC limit that does not
cross is left unchanged by matching, produces no trade, and is inserted
into the book. -/
theorem c7_post_only (ob : Orderbook) (taker : Order) (hInv : Inv ob)
    (hpo : taker.isPostOnly = true) (hopen : taker.status = .opened) :
    (PostOnly.enforce taker ob = taker.cancel ↔
      ∃ top, (ob.iterOrders taker.side.opposite).head? = some top ∧
        (top.matches taker).toBool = true) ∧
      ((∀ top, (ob.iterOrders taker.side.opposite).head? = some top →
          (top.matches taker).toBool = false) →
        ∃ converted, LimitOrder.tryFrom taker = .ok converted ∧
          MatchingAlgo.matching ob taker =
            .ok [] (ob.insert converted) taker ∧
          OrdersById.get (ob.insert converted).ordersById taker.id =
            some converted) := by
  have hcancel_ne : taker.cancel ≠ taker := by
    intro hh
    have : taker.cancel.status = taker.status := by rw [hh]
    rw [Order.cancel, hopen] at this
    simp [hopen] at this
  rcases post_only_shape taker hpo with ⟨hfok, hioc, p, pb, htype⟩
  constructor
  · constructor
    · intro hh
      by_cases hcond : (match (ob.iterOrders taker.side.opposite).head? with
        | some top => (top.matches taker).toBool
        | none => false) = true
      · cases htop : (ob.iterOrders taker.side.opposite).head? with
        | none => rw [htop] at hcond; simp at hcond
        | some top =>
          rw [htop] at hcond
          exact ⟨top, rfl, hcond⟩
      · rw [PostOnly.enforce] at hh
        rw [if_neg (by simp [hpo, hcond])] at hh
        exact absurd hh.symm hcancel_ne
    · rintro ⟨top, htop, hmatch⟩
      rw [PostOnly.enforce, if_pos (by simp [hpo, htop, hmatch])]
  · intro hnc
    have hcond : (match (ob.iterOrders taker.side.opposite).head? with
        | some top => (top.matches taker).toBool
        | none => false) = false := by
      cases htop : (ob.iterOrders taker.side.opposite).head? with
      | none => rfl
      | some top => exact hnc top htop
    have henf2 : PostOnly.enforce taker ob = taker := by
      rw [PostOnly.enforce, if_neg (by simp [hpo, hcond])]
    have henf1 : FillOrKill.enforce taker ob = taker := by
      rw [FillOrKill.enforce, if_neg (by simp [hfok])]
    have hclosed : taker.isClosed = false := by
      rw [Order.isClosed, hopen]
    have hloop : matchLoop (ob.ordersById.length + 2) ob taker [] =
        .ok [] ob taker := by
      rw [show ob.ordersById.length + 2 = (ob.ordersById.length + 1) + 1
        from rfl, matchLoop]
      rw [if_neg (by simp [hclosed])]
      rw [orderbook_peek_eq ob taker.side.opposite hInv]
      cases htop : (ob.iterOrders taker.side.opposite).head? with
      | none => rfl
      | some top =>
        have hmatch := hnc top htop
        have : ∃ e, top.matches taker = .error e := by
          cases hmm : top.matches taker with
          | ok u => rw [hmm] at hmatch; simp [Except.toBool] at hmatch
          | error e => exact ⟨e, rfl⟩
        rcases this with ⟨e, he⟩
        simp only [Trade.tryNew, he]
    have hioc2 : ImmediateOrCancel.enforce taker = taker := by
      rw [ImmediateOrCancel.enforce, if_neg (by simp [hioc])]
    have hconv : LimitOrder.tryFrom taker =
        .ok ⟨taker.id, taker.side, p, true, pb.quantity, pb.filled,
          taker.status⟩ := by
      rw [LimitOrder.tryFrom, htype]
    refine ⟨⟨taker.id, taker.side, p, true, pb.quantity, pb.filled,
      taker.status⟩, hconv, ?_, ?_⟩
    · rw [MatchingAlgo.matching, henf1, henf2, hloop]
      simp only [hioc2, hconv]
    · rw [Orderbook.insert]
      simp only
      rw [ordersById_get_insert_self]


/-- Witness for C7: the non-crossing post-only bid is booked unchanged
with no trade. -/
theorem c7_post_only_witness :
    ∃ converted, LimitOrder.tryFrom postOnlyBid5 = .ok converted ∧
      MatchingAlgo.matching bookAsk10 postOnlyBid5 =
        .ok [] (bookAsk10.insert converted) postOnlyBid5 ∧
      OrdersById.get (bookAsk10.insert converted).ordersById
        postOnlyBid5.id = some converted := by
  have hInv : Inv bookAsk10 := inv_insert _ _ inv_empty rfl
  refine (c7_post_only bookAsk10 postOnlyBid5 hInv rfl rfl).2 ?_
  intro top htop
  have hhead : (bookAsk10.iterOrders postOnlyBid5.side.opposite).head? =
      some ⟨1, .ask, 10, false, 10, 0, .opened⟩ := by
    with_unfolding_all rfl
  have htopeq : top = ⟨1, .ask, 10, false, 10, 0, .opened⟩ :=
    Option.some.inj (htop.symm.trans hhead)
  rw [htopeq]
  with_unfolding_all rfl


/-! Fill-state helper lemmas for the fill-or-kill development. -/

theorem order_fillUnchecked_id (o : Order) (q : Quantity) (p : Price) :
    (o.fillUnchecked q p).id = o.id := by
  rcases o with ⟨i, s, t, st⟩
  rcases t with ⟨p', tif, pb⟩ | ⟨aon, pb⟩
  · rfl
  · rcases pb with pb | pf <;> rfl

theorem order_fillUnchecked_side (o : Order) (q : Quantity) (p : Price) :
    (o.fillUnchecked q p).side = o.side := by
  rcases o with ⟨i, s, t, st⟩
  rcases t with ⟨p', tif, pb⟩ | ⟨aon, pb⟩
  · rfl
  · rcases pb with pb | pf <;> rfl

theorem order_fillUnchecked_limitPrice (o : Order) (q : Quantity)
    (p : Price) : (o.fillUnchecked q p).limitPrice = o.limitPrice := by
  rcases o with ⟨i, s, t, st⟩
  rcases t with ⟨p', tif, pb⟩ | ⟨aon, pb⟩
  · rfl
  · rcases pb with pb | pf <;> rfl

theorem order_fillUnchecked_isFundsPriced (o : Order) (q : Quantity)
    (p : Price) :
    (o.fillUnchecked q p).isFundsPriced = o.isFundsPriced := by
  rcases o with ⟨i, s, t, st⟩
  rcases t with ⟨p', tif, pb⟩ | ⟨aon, pb⟩
  · rfl
  · rcases pb with pb | pf <;> rfl

theorem order_fillUnchecked_isFillOrKill (o : Order) (q : Quantity)
    (p : Price) :
    (o.fillUnchecked q p).isFillOrKill = o.isFillOrKill := by
  rcases o with ⟨i, s, t, st⟩
  rcases t with ⟨p', tif, pb⟩ | ⟨aon, pb⟩
  · rcases tif <;> rfl
  · rcases pb with pb | pf <;> rfl

theorem order_fillUnchecked_remaining_right (o : Order) (q : Quantity)
    (p : Price) (rem : Quantity) (h : o.remaining = .right rem) :
    (o.fillUnchecked q p).remaining = .right (rem - q) := by
  rcases o with ⟨i, s, t, st⟩
  rcases t with ⟨p', tif, pb⟩ | ⟨aon, pb⟩
  · rw [Order.remaining] at h
    simp only at h
    rcases Either.right.inj h with rfl
    simp [Order.fillUnchecked, Order.remaining]
    ring
  · rcases pb with pb | pf
    · rw [Order.remaining] at h
      simp only at h
      rcases Either.right.inj h with rfl
      simp [Order.fillUnchecked, Order.remaining]
      ring
    · rw [Order.remaining] at h
      simp at h

theorem order_fillUnchecked_remaining_left (o : Order) (q : Quantity)
    (p : Price) (rem : Notional) (h : o.remaining = .left rem) :
    (o.fillUnchecked q p).remaining = .left (rem - q * p) := by
  rcases o with ⟨i, s, t, st⟩
  rcases t with ⟨p', tif, pb⟩ | ⟨aon, pb⟩
  · rw [Order.remaining] at h
    simp at h
  · rcases pb with pb | pf
    · rw [Order.remaining] at h
      simp at h
    · rw [Order.remaining] at h
      simp only at h
      rcases Either.left.inj h with rfl
      simp [Order.fillUnchecked, Order.remaining]
      ring

theorem order_fillUnchecked_status (o : Order) (q : Quantity)
    (p : Price) :
    (o.fillUnchecked q p).status =
      if (o.fillUnchecked q p).remainingIsZero then OrderStatus.completed
      else .partiallyFilled := by
  rcases o with ⟨i, s, t, st⟩
  rcases t with ⟨p', tif, pb⟩ | ⟨aon, pb⟩
  · rfl
  · rcases pb with pb | pf <;> rfl

theorem order_fillUnchecked_isClosed (o : Order) (q : Quantity)
    (p : Price) :
    (o.fillUnchecked q p).isClosed =
      (o.fillUnchecked q p).remainingIsZero := by
  rw [Order.isClosed, order_fillUnchecked_status]
  by_cases hz : (o.fillUnchecked q p).remainingIsZero = true
  · rw [hz]
    simp
  · rw [Bool.not_eq_true] at hz
    rw [hz]
    simp


theorem limit_fillUnchecked_id (o : LimitOrder) (q : Quantity) :
    (o.fillUnchecked q).id = o.id := rfl

theorem limit_fillUnchecked_side (o : LimitOrder) (q : Quantity) :
    (o.fillUnchecked q).side = o.side := rfl

theorem limit_fillUnchecked_unitPrice (o : LimitOrder) (q : Quantity) :
    (o.fillUnchecked q).unitPrice = o.unitPrice := rfl

theorem limit_fillUnchecked_remaining (o : LimitOrder) (q : Quantity) :
    (o.fillUnchecked q).remaining = o.remaining - q := by
  simp only [LimitOrder.fillUnchecked, LimitOrder.remaining]
  ring

theorem limit_fillUnchecked_status (o : LimitOrder) (q : Quantity) :
    (o.fillUnchecked q).status =
      if (o.fillUnchecked q).remaining = 0 then OrderStatus.completed
      else .partiallyFilled := rfl

theorem limit_fillUnchecked_isClosed (o : LimitOrder) (q : Quantity) :
    (o.fillUnchecked q).isClosed =
      ((o.fillUnchecked q).remaining = 0 : Bool) := by
  rw [LimitOrder.isClosed, limit_fillUnchecked_status]
  by_cases hz : (o.fillUnchecked q).remaining = 0
  · rw [if_pos hz]
    simp [hz]
  · rw [if_neg hz]
    simp [hz]

theorem order_cancel_type (o : Order) : o.cancel.type_ = o.type_ := by
  rw [Order.cancel]
  rcases o with ⟨i, s, t, st⟩
  rcases st <;> rfl

theorem order_cancel_remainingIsZero (o : Order) :
    o.cancel.remainingIsZero = o.remainingIsZero := by
  rw [Order.remainingIsZero, Order.remainingIsZero, Order.remaining,
    Order.remaining, order_cancel_type]

theorem order_cancel_id (o : Order) : o.cancel.id = o.id := by
  rw [Order.cancel]
  rcases o with ⟨i, s, t, st⟩
  rcases st <;> rfl

theorem except_unit_toBool_true (x : Except TradeError Unit)
    (h : x.toBool = true) : x = .ok () := by
  cases x with
  | ok u => cases u; rfl
  | error e => simp [Except.toBool, Except.isOk] at h

theorem list_takeWhile_congr {α : Type} (p q : α → Bool) (l : List α)
    (h : ∀ x ∈ l, p x = q x) : l.takeWhile p = l.takeWhile q := by
  induction l with
  | nil => rfl
  | cons x t ih =>
    rw [List.takeWhile_cons, List.takeWhile_cons, h x (by simp)]
    by_cases hq : q x = true
    · rw [if_pos hq, if_pos hq,
        ih (fun y hy => h y (by simp [hy]))]
    · rw [Bool.not_eq_true] at hq
      rw [hq]
      simp

theorem head_decomp_unique {α : Type} (x : α) (t u v : List α)
    (hnd : (x :: t).Nodup) (h : x :: t = u ++ x :: v) :
    u = [] ∧ v = t := by
  cases u with
  | nil =>
    rw [List.nil_append] at h
    exact ⟨rfl, (List.cons.inj h).2.symm⟩
  | cons y u' =>
    rw [List.cons_append] at h
    rcases List.cons.inj h with ⟨rfl, ht⟩
    rw [List.nodup_cons] at hnd
    exact absurd (by rw [ht]; exact List.mem_append_right _ (by simp))
      hnd.1

/-- An order is funds-priced exactly when its remaining is a Left. -/
theorem order_remaining_left_iff (o : Order) :
    o.isFundsPriced = true ↔ ∃ f, o.remaining = .left f := by
  rcases o with ⟨i, s, t, st⟩
  rcases t with ⟨p', tif, pb⟩ | ⟨aon, pb⟩
  · simp [Order.isFundsPriced, Order.remaining]
  · rcases pb with pb | pf <;>
      simp [Order.isFundsPriced, Order.remaining]

theorem order_remainingAmount_right (o : Order) (rem : Quantity)
    (h : o.remaining = .right rem) : o.remainingAmount = rem := by
  rw [Order.remainingAmount, h]

theorem order_remainingAmount_left (o : Order) (rem : Notional)
    (h : o.remaining = .left rem) : o.remainingAmount = rem := by
  rw [Order.remainingAmount, h]

theorem order_remainingIsZero_iff (o : Order) :
    o.remainingIsZero = true ↔ o.remainingAmount = 0 := by
  rw [Order.remainingIsZero, Order.remainingAmount]
  cases o.remaining <;> simp

theorem limit_matches_congr (m : LimitOrder) (t s : Order)
    (hc : s.isClosed = t.isClosed) (hlp : s.limitPrice = t.limitPrice)
    (hs : s.side = t.side) : m.matches s = m.matches t := by
  rw [LimitOrder.matches, LimitOrder.matches, hc, hlp, hs]

theorem order_fillUnchecked_isLimitGtc (o : Order) (q : Quantity)
    (p : Price) : (o.fillUnchecked q p).isLimitGtc = o.isLimitGtc := by
  rcases o with ⟨i, s, t, st⟩
  rcases t with ⟨lp, tif, pb⟩ | ⟨aon, pb⟩
  · rcases tif <;> rfl
  · rcases pb with pb | pf <;> rfl

theorem order_fillUnchecked_isImmediateOrCancel (o : Order) (q : Quantity)
    (p : Price) :
    (o.fillUnchecked q p).isImmediateOrCancel = o.isImmediateOrCancel := by
  rcases o with ⟨i, s, t, st⟩
  rcases t with ⟨lp, tif, pb⟩ | ⟨aon, pb⟩
  · rcases tif <;> rfl
  · rcases pb with pb | pf <;> rfl

theorem order_cancel_isLimitGtc (o : Order) :
    o.cancel.isLimitGtc = o.isLimitGtc := by
  rw [Order.isLimitGtc, Order.isLimitGtc, order_cancel_type]

theorem limit_tryFrom_err (o : Order) (h : o.isLimitGtc = false) :
    LimitOrder.tryFrom o = .error .incompatible := by
  rcases o with ⟨i, s, t, st⟩
  rcases t with ⟨lp, tif, pb⟩ | ⟨aon, pb⟩
  · rcases tif with po | aon
    · simp [Order.isLimitGtc] at h
    · rfl
  · rfl

theorem fok_not_limitGtc (o : Order) (h : o.isFillOrKill = true) :
    o.isLimitGtc = false := by
  rcases o with ⟨i, s, t, st⟩
  rcases t with ⟨lp, tif, pb⟩ | ⟨aon, pb⟩
  · rcases tif with po | aon
    · simp [Order.isFillOrKill] at h
    · rfl
  · rfl

theorem fok_not_postOnly (o : Order) (h : o.isFillOrKill = true) :
    o.isPostOnly = false := by
  rcases o with ⟨i, s, t, st⟩
  rcases t with ⟨lp, tif, pb⟩ | ⟨aon, pb⟩
  · rcases tif with po | aon
    · simp [Order.isFillOrKill] at h
    · rfl
  · rfl

theorem exchangedQuantity_le_maker (maker : LimitOrder) (taker : Order) :
    exchangedQuantity maker taker ≤ maker.remaining := by
  rw [exchangedQuantity]
  exact min_le_right _ _

theorem exchangedQuantity_eq_funds (maker : LimitOrder) (taker : Order)
    (funds : Notional) (h : taker.remaining = .left funds) :
    exchangedQuantity maker taker =
      min (funds / maker.unitPrice) maker.remaining := by
  rw [exchangedQuantity, h]

theorem exchangedQuantity_eq_qty (maker : LimitOrder) (taker : Order)
    (qty : Quantity) (h : taker.remaining = .right qty) :
    exchangedQuantity maker taker = min qty maker.remaining := by
  rw [exchangedQuantity, h]

theorem exchangedQuantity_pos (maker : LimitOrder) (taker : Order)
    (hp : 0 < maker.unitPrice) (hmr : 0 < maker.remaining)
    (hr : 0 < taker.remainingAmount) :
    0 < exchangedQuantity maker taker := by
  cases hrem : taker.remaining with
  | left funds =>
    rw [exchangedQuantity_eq_funds maker taker funds hrem]
    rw [order_remainingAmount_left taker funds hrem] at hr
    exact lt_min (div_pos hr hp) hmr
  | right qty =>
    rw [exchangedQuantity_eq_qty maker taker qty hrem]
    rw [order_remainingAmount_right taker qty hrem] at hr
    exact lt_min hr hmr

theorem iterOrders_mem_healthy (ob : Orderbook) (side : OrderSide)
    (hH : Healthy ob) (m : LimitOrder) (hm : m ∈ ob.iterOrders side) :
    m.isClosed = false ∧ 0 < m.remaining ∧ 0 < m.unitPrice := by
  rw [Orderbook.iterOrders] at hm
  rcases List.mem_filterMap.mp hm with ⟨oid, _, hget⟩
  exact hH oid m hget

theorem iter_nodup (ob : Orderbook) (hInv : Inv ob) (side : OrderSide) :
    (ob.ordersBySide.iter side).Nodup := by
  have h := hInv.nodupIds
  rw [orderbook_allIds_eq] at h
  cases side
  · rw [ordersBySide_iter_ask]
    exact h.of_append_left
  · rw [ordersBySide_iter_bid]
    exact ((priceMap_ids_reverse_perm _).nodup_iff).mpr h.of_append_right

theorem iter_mem_entry (b : OrdersBySide) (s : OrderSide) (k : OrderId)
    (h : k ∈ b.iter s) : ∃ e ∈ b.side s, k ∈ e.2 := by
  cases s
  · rw [ordersBySide_iter_ask] at h
    exact (priceMap_mem_ids _ k).mp h
  · rw [ordersBySide_iter_bid] at h
    rcases (priceMap_mem_ids _ k).mp h with ⟨e, he, hk⟩
    exact ⟨e, List.mem_reverse.mp he, hk⟩

theorem iterOrders_cons_elim (ob : Orderbook) (side : OrderSide)
    (hInv : Inv ob) (maker : LimitOrder) (rest : List LimitOrder)
    (h : ob.iterOrders side = maker :: rest) :
    ∃ tail, ob.ordersBySide.iter side = maker.id :: tail ∧
      OrdersById.get ob.ordersById maker.id = some maker ∧
      rest = tail.filterMap (fun oid => OrdersById.get ob.ordersById oid) := by
  cases hit : ob.ordersBySide.iter side with
  | nil =>
    rw [Orderbook.iterOrders, hit] at h
    simp at h
  | cons oid tail =>
    have hmem : oid ∈ ob.allIds :=
      iter_mem_allIds ob side oid (by rw [hit]; simp)
    obtain ⟨w, hw⟩ := Option.isSome_iff_exists.mp
      (orderbook_mem_allIds_isSome ob oid hInv hmem)
    rw [Orderbook.iterOrders, hit] at h
    simp only [List.filterMap_cons, hw] at h
    rcases List.cons.inj h with ⟨hwm, hrest⟩
    rcases hInv.located oid w hw with ⟨hid, _⟩
    refine ⟨tail, ?_, ?_, hrest.symm⟩
    · rw [← hwm, hid]
    · rw [← hwm, hid]
      exact hw

theorem orderbook_writeBack_side (ob : Orderbook) (o : LimitOrder) :
    (ob.writeBack o).ordersBySide = ob.ordersBySide := rfl

theorem orderbook_writeBack_allIds (ob : Orderbook) (o : LimitOrder) :
    (ob.writeBack o).allIds = ob.allIds := rfl

theorem orderbook_writeBack_length (ob : Orderbook) (o : LimitOrder) :
    (ob.writeBack o).ordersById.length = ob.ordersById.length := by
  simp [Orderbook.writeBack]

theorem orderbook_writeBack_get_self (ob : Orderbook) (o w : LimitOrder)
    (hget : OrdersById.get ob.ordersById o.id = some w) :
    OrdersById.get (ob.writeBack o).ordersById o.id = some o :=
  ordersById_get_writeBack_self ob.ordersById o w hget

theorem orderbook_writeBack_get_ne (ob : Orderbook) (o : LimitOrder)
    (k : OrderId) (h : k ≠ o.id) :
    OrdersById.get (ob.writeBack o).ordersById k =
      OrdersById.get ob.ordersById k :=
  ordersById_get_writeBack_ne ob.ordersById o k h

theorem inv_writeBack (ob : Orderbook) (old new : LimitOrder)
    (hInv : Inv ob)
    (hget : OrdersById.get ob.ordersById new.id = some old)
    (hside : new.side = old.side) (hprice : new.unitPrice = old.unitPrice) :
    Inv (ob.writeBack new) := by
  refine ⟨?_, ?_, ?_, ?_, ?_⟩
  · intro s
    rw [orderbook_writeBack_side]
    exact hInv.sorted s
  · intro s e he
    rw [orderbook_writeBack_side] at he
    exact hInv.ne s e he
  · rw [orderbook_writeBack_allIds]
    exact hInv.nodupIds
  · intro oid o h
    by_cases hk : oid = new.id
    · subst hk
      rw [orderbook_writeBack_get_self ob new old hget] at h
      have hno := Option.some.inj h
      subst hno
      rcases hInv.located new.id old hget with ⟨_, hmem⟩
      rw [orderbook_writeBack_side]
      refine ⟨rfl, ?_⟩
      rw [hside, hprice]
      exact hmem
    · rw [orderbook_writeBack_get_ne ob new oid hk] at h
      rw [orderbook_writeBack_side]
      exact hInv.located oid o h
  · intro s e he oid hoid
    rw [orderbook_writeBack_side] at he
    rcases hInv.placed s e he oid hoid with ⟨w, hw, hwside, hwprice⟩
    by_cases hk : oid = new.id
    · subst hk
      have hwold : old = w := by
        rw [hget] at hw
        exact Option.some.inj hw
      subst hwold
      exact ⟨new, orderbook_writeBack_get_self ob new old hget,
        by rw [hside]; exact hwside, by rw [hprice]; exact hwprice⟩
    · exact ⟨w, by rw [orderbook_writeBack_get_ne ob new oid hk]; exact hw,
        hwside, hwprice⟩

theorem list_filterMap_congr {α β : Type} (f g : α → Option β)
    (l : List α) (h : ∀ a ∈ l, f a = g a) : l.filterMap f = l.filterMap g := by
  induction l with
  | nil => rfl
  | cons x t ih =>
    rw [List.filterMap_cons, List.filterMap_cons, h x (by simp),
      ih (fun a ha => h a (by simp [ha]))]

theorem canFillFoldFunds_iff (l : List (Price × Quantity)) :
    ∀ r : Notional, 0 < r → (∀ e ∈ l, 0 < e.1 * e.2) →
      (canFillFoldFunds r l = true ↔
        r ≤ (l.map (fun e => e.1 * e.2)).sum) := by
  induction l with
  | nil =>
    intro r hr _
    rw [canFillFoldFunds]
    simp only [List.map_nil, List.sum_nil]
    constructor
    · intro h
      exact absurd h (by decide)
    · intro h
      exact absurd hr (not_lt.mpr h)
  | cons e rest ih =>
    intro r hr hl
    rcases e with ⟨p, q⟩
    have hpq : 0 < p * q := hl (p, q) (by simp)
    have hrest : ∀ e ∈ rest, 0 < e.1 * e.2 := fun e he => hl e (by simp [he])
    have hsum : 0 ≤ (rest.map (fun e => e.1 * e.2)).sum := by
      apply List.sum_nonneg
      intro x hx
      rcases List.mem_map.mp hx with ⟨e, he, rfl⟩
      exact le_of_lt (hrest e he)
    rw [canFillFoldFunds]
    simp only [List.map_cons, List.sum_cons]
    by_cases hz : r - min (p * q) r = 0
    · rw [if_pos hz]
      have hle : r ≤ p * q := by
        by_contra hgt
        push_neg at hgt
        rw [min_eq_left (le_of_lt hgt)] at hz
        exact absurd (sub_eq_zero.mp hz).symm (ne_of_lt hgt)
      constructor
      · intro _
        calc r ≤ p * q := hle
          _ ≤ p * q + (rest.map (fun e => e.1 * e.2)).sum :=
            le_add_of_nonneg_right hsum
      · intro _
        rfl
    · rw [if_neg hz]
      have hlt : p * q < r := by
        by_contra hge
        push_neg at hge
        rw [min_eq_right hge, sub_self] at hz
        exact hz rfl
      rw [min_eq_left (le_of_lt hlt)]
      rw [min_eq_left (le_of_lt hlt)] at hz
      rw [ih (r - p * q) (sub_pos.mpr hlt) hrest]
      constructor
      · intro h
        linarith
      · intro h
        linarith

theorem canFillFoldQty_iff (l : List (Price × Quantity)) :
    ∀ r : Quantity, 0 < r → (∀ e ∈ l, 0 < e.2) →
      (canFillFoldQty r l = true ↔ r ≤ (l.map (fun e => e.2)).sum) := by
  induction l with
  | nil =>
    intro r hr _
    rw [canFillFoldQty]
    simp only [List.map_nil, List.sum_nil]
    constructor
    · intro h
      exact absurd h (by decide)
    · intro h
      exact absurd hr (not_lt.mpr h)
  | cons e rest ih =>
    intro r hr hl
    rcases e with ⟨p, q⟩
    have hpq : 0 < q := hl (p, q) (by simp)
    have hrest : ∀ e ∈ rest, 0 < e.2 := fun e he => hl e (by simp [he])
    have hsum : 0 ≤ (rest.map (fun e => e.2)).sum := by
      apply List.sum_nonneg
      intro x hx
      rcases List.mem_map.mp hx with ⟨e, he, rfl⟩
      exact le_of_lt (hrest e he)
    rw [canFillFoldQty]
    simp only [List.map_cons, List.sum_cons]
    by_cases hz : r - min q r = 0
    · rw [if_pos hz]
      have hle : r ≤ q := by
        by_contra hgt
        push_neg at hgt
        rw [min_eq_left (le_of_lt hgt)] at hz
        exact absurd (sub_eq_zero.mp hz).symm (ne_of_lt hgt)
      constructor
      · intro _
        calc r ≤ q := hle
          _ ≤ q + (rest.map (fun e => e.2)).sum := le_add_of_nonneg_right hsum
      · intro _
        rfl
    · rw [if_neg hz]
      have hlt : q < r := by
        by_contra hge
        push_neg at hge
        rw [min_eq_right hge, sub_self] at hz
        exact hz rfl
      rw [min_eq_left (le_of_lt hlt)]
      rw [min_eq_left (le_of_lt hlt)] at hz
      rw [ih (r - q) (sub_pos.mpr hlt) hrest]
      constructor
      · intro h
        linarith
      · intro h
        linarith

theorem canFillEntries_mem (taker : Order) (ob : Orderbook)
    (e : Price × Quantity) (he : e ∈ canFillEntries taker ob) :
    ∃ m ∈ ob.iterOrders taker.side.opposite,
      e = (m.unitPrice, m.remaining) := by
  rw [canFillEntries] at he
  rcases List.mem_map.mp he with ⟨m, hm, rfl⟩
  exact ⟨m, (List.takeWhile_sublist _).subset hm, rfl⟩

theorem canFillEntries_pos (taker : Order) (ob : Orderbook)
    (hH : Healthy ob) :
    ∀ e ∈ canFillEntries taker ob, 0 < e.1 ∧ 0 < e.2 := by
  intro e he
  rcases canFillEntries_mem taker ob e he with ⟨m, hm, rfl⟩
  rcases iterOrders_mem_healthy ob _ hH m hm with ⟨_, hrem, hp⟩
  exact ⟨hp, hrem⟩

theorem order_remaining_right_of_not_funds (taker : Order)
    (h : taker.isFundsPriced = false) :
    ∃ qty, taker.remaining = .right qty := by
  rcases taker with ⟨i, s, t, st⟩
  rcases t with ⟨lp, tif, pb⟩ | ⟨aon, pb⟩
  · exact ⟨pb.quantity - pb.filled, rfl⟩
  · rcases pb with pb | pf
    · exact ⟨pb.quantity - pb.filled, rfl⟩
    · simp [Order.isFundsPriced] at h

theorem fok_canFill_iff (taker : Order) (ob : Orderbook) (hH : Healthy ob)
    (hr : 0 < taker.remainingAmount) :
    (FillOrKill.canFill taker ob = true ↔ sufficientLiquidity taker ob) := by
  have hpos := canFillEntries_pos taker ob hH
  rw [FillOrKill.canFill, sufficientLiquidity]
  cases hrem : taker.remaining with
  | left funds =>
    have hfp : taker.isFundsPriced = true :=
      (order_remaining_left_iff taker).mpr ⟨funds, hrem⟩
    have hfr : taker.remainingAmount = funds :=
      order_remainingAmount_left taker funds hrem
    rw [hfr] at hr
    have hmap : (canFillEntries taker ob).map (availSize taker) =
        (canFillEntries taker ob).map (fun e => e.1 * e.2) := by
      apply List.map_congr_left
      intro e _
      rw [availSize, hfp]
      simp
    rw [hfr, hmap]
    have hstep :
        (canFillFoldFunds funds (canFillEntries taker ob) = true ↔
          funds ≤ ((canFillEntries taker ob).map (fun e => e.1 * e.2)).sum) :=
      canFillFoldFunds_iff (canFillEntries taker ob) funds hr
        (fun e he => mul_pos (hpos e he).1 (hpos e he).2)
    exact hstep
  | right qty =>
    have hfp : taker.isFundsPriced = false := by
      by_contra h
      rw [Bool.not_eq_false] at h
      rcases (order_remaining_left_iff taker).mp h with ⟨f, hf⟩
      rw [hrem] at hf
      cases hf
    have hfr : taker.remainingAmount = qty :=
      order_remainingAmount_right taker qty hrem
    rw [hfr] at hr
    have hmap : (canFillEntries taker ob).map (availSize taker) =
        (canFillEntries taker ob).map (fun e => e.2) := by
      apply List.map_congr_left
      intro e _
      rw [availSize, hfp]
      simp
    rw [hfr, hmap]
    have hstep :
        (canFillFoldQty qty (canFillEntries taker ob) = true ↔
          qty ≤ ((canFillEntries taker ob).map (fun e => e.2)).sum) :=
      canFillFoldQty_iff (canFillEntries taker ob) qty hr
        (fun e he => (hpos e he).2)
    exact hstep

theorem priceMap_removeId_ids_sub (m : PriceMap) (p : Price)
    (oid : OrderId) :
    ∀ m', PriceMap.removeId m p oid = some m' →
      ∀ k ∈ PriceMap.ids m', k ∈ PriceMap.ids m := by
  induction m with
  | nil =>
    intro m' h
    rw [PriceMap.removeId] at h
    exact Option.noConfusion h
  | cons e rest ih =>
    intro m' h
    rcases e with ⟨q, l⟩
    rw [PriceMap.removeId] at h
    by_cases hpq : p = q
    · rw [if_pos hpq] at h
      by_cases hlen : l.length = 1
      · rw [if_pos hlen] at h
        have hm := Option.some.inj h
        subst hm
        intro k hk
        rw [priceMap_ids_cons]
        exact List.mem_append_right _ hk
      · rw [if_neg hlen] at h
        cases hidx : l.indexOf? oid with
        | none =>
          rw [hidx] at h
          exact Option.noConfusion h
        | some i =>
          rw [hidx] at h
          have hm := Option.some.inj h
          subst hm
          intro k hk
          rw [priceMap_ids_cons] at hk ⊢
          rcases List.mem_append.mp hk with hk | hk
          · exact List.mem_append_left _ ((l.eraseIdx_sublist i).subset hk)
          · exact List.mem_append_right _ hk
    · rw [if_neg hpq] at h
      cases hrec : PriceMap.removeId rest p oid with
      | none =>
        rw [hrec] at h
        exact Option.noConfusion h
      | some m₀ =>
        rw [hrec] at h
        simp only [Option.map_some'] at h
        have hm := Option.some.inj h
        subst hm
        intro k hk
        rw [priceMap_ids_cons] at hk ⊢
        rcases List.mem_append.mp hk with hk | hk
        · exact List.mem_append_left _ hk
        · exact List.mem_append_right _ (ih m₀ hrec k hk)

theorem orderbook_remove_allIds_sub (ob ob'' : Orderbook) (o : LimitOrder)
    (hsideo : ∀ s, s ≠ o.side →
      ob''.ordersBySide.side s = ob.ordersBySide.side s)
    (hremId : PriceMap.removeId (ob.ordersBySide.side o.side) o.unitPrice
      o.id = some (ob''.ordersBySide.side o.side)) :
    ∀ k ∈ ob''.allIds, k ∈ ob.allIds := by
  intro k hk
  rcases (orderbook_mem_allIds ob'' k).mp hk with ⟨s, e, he, hke⟩
  by_cases hs : s = o.side
  · subst hs
    have hmem : k ∈ PriceMap.ids (ob''.ordersBySide.side o.side) :=
      (priceMap_mem_ids _ k).mpr ⟨e, he, hke⟩
    have hsub := priceMap_removeId_ids_sub (ob.ordersBySide.side o.side)
      o.unitPrice o.id (ob''.ordersBySide.side o.side) hremId k hmem
    rcases (priceMap_mem_ids _ k).mp hsub with ⟨e₀, he₀, hk₀⟩
    exact (orderbook_mem_allIds ob k).mpr ⟨o.side, e₀, he₀, hk₀⟩
  · rw [hsideo s hs] at he
    exact (orderbook_mem_allIds ob k).mpr ⟨s, e, he, hke⟩

theorem removeId_iter_tail (ob ob'' : Orderbook) (side : OrderSide)
    (p : Price) (oid : OrderId) (tail : List OrderId) (hInv : Inv ob)
    (hiter : ob.ordersBySide.iter side = oid :: tail)
    (hmem : oid ∈ PriceMap.levelAt (ob.ordersBySide.side side) p)
    (hrem : PriceMap.removeId (ob.ordersBySide.side side) p oid =
      some (ob''.ordersBySide.side side)) :
    ob''.ordersBySide.iter side = tail := by
  have hnd := iter_nodup ob hInv side
  cases side with
  | ask =>
    rcases priceMap_removeId_spec (ob.ordersBySide.side .ask) p oid
      (hInv.sorted .ask) hmem with
      ⟨m', hrem', _, _, ⟨u, v, hold, hnew⟩, _, _, _⟩
    rw [hrem'] at hrem
    have hm' := Option.some.inj hrem
    rw [ordersBySide_iter_ask] at hiter hnd ⊢
    rcases head_decomp_unique oid tail u v (by rw [← hiter]; exact hnd)
      (by rw [← hiter]; exact hold) with ⟨hu, hv⟩
    subst hu
    subst hv
    rw [← hm', hnew]
    rfl
  | bid =>
    rcases priceMap_removeId_ids_rev (ob.ordersBySide.side .bid) p oid
      (hInv.sorted .bid) hmem with ⟨m', hrem', u, v, hold, hnew⟩
    rw [hrem'] at hrem
    have hm' := Option.some.inj hrem
    rw [ordersBySide_iter_bid] at hiter hnd ⊢
    rcases head_decomp_unique oid tail u v (by rw [← hiter]; exact hnd)
      (by rw [← hiter]; exact hold) with ⟨hu, hv⟩
    subst hu
    subst hv
    rw [← hm', hnew]
    rfl

theorem matchLoop_succ (fuel : ℕ) (ob : Orderbook) (taker : Order)
    (trades : List Trade) :
    matchLoop (fuel + 1) ob taker trades =
      if taker.isClosed then .ok trades ob taker
      else
        match ob.peek taker.side.opposite with
        | none => .panic
        | some none => .ok trades ob taker
        | some (some maker) =>
          match Trade.tryNew maker taker with
          | .err _ => .ok trades ob taker
          | .panic => .panic
          | .ok trade maker' taker' =>
            let ob' := ob.writeBack maker'
            if maker'.isClosed then
              match ob'.remove maker'.id with
              | some (some _, ob'') =>
                  matchLoop fuel ob'' taker' (trades ++ [trade])
              | some (none, _) => .panic
              | none => .panic
            else matchLoop fuel ob' taker' (trades ++ [trade]) := rfl

theorem tryNew_ok_of (maker : LimitOrder) (taker : Order)
    (hm : maker.matches taker = .ok ())
    (hpos : 0 < exchangedQuantity maker taker)
    (hp : 0 < maker.unitPrice) :
    Trade.tryNew maker taker =
      .ok ⟨taker.id, maker.id, exchangedQuantity maker taker,
          maker.unitPrice, exchangedQuantity maker taker * maker.unitPrice⟩
        (maker.fillUnchecked (exchangedQuantity maker taker))
        (taker.fillUnchecked (exchangedQuantity maker taker)
          maker.unitPrice) := by
  have hmfill : maker.fill (exchangedQuantity maker taker) =
      some (maker.fillUnchecked (exchangedQuantity maker taker)) := by
    rw [LimitOrder.fill, LimitOrder.tryFill, if_neg (ne_of_gt hpos),
      if_neg (not_lt.mpr (exchangedQuantity_le_maker maker taker))]
    rfl
  have htfill : taker.fill (exchangedQuantity maker taker)
        maker.unitPrice =
      some (taker.fillUnchecked (exchangedQuantity maker taker)
        maker.unitPrice) := by
    rw [Order.fill, Order.tryFill, if_neg (ne_of_gt hpos)]
    cases hrem : taker.remaining with
    | left funds =>
      have hle : exchangedQuantity maker taker * maker.unitPrice ≤
          funds := by
        have h1 : exchangedQuantity maker taker ≤
            funds / maker.unitPrice := by
          rw [exchangedQuantity_eq_funds maker taker funds hrem]
          exact min_le_left _ _
        calc exchangedQuantity maker taker * maker.unitPrice
            ≤ (funds / maker.unitPrice) * maker.unitPrice :=
              mul_le_mul_of_nonneg_right h1 (le_of_lt hp)
          _ = funds := div_mul_cancel₀ funds (ne_of_gt hp)
      simp only [hrem]
      rw [if_neg (not_lt.mpr hle)]
      rfl
    | right qty =>
      have hle : exchangedQuantity maker taker ≤ qty := by
        rw [exchangedQuantity_eq_qty maker taker qty hrem]
        exact min_le_left _ _
      simp only [hrem]
      rw [if_neg (not_lt.mpr hle)]
      rfl
  rw [Trade.tryNew]
  simp only [hm, hmfill, htfill]

theorem matchLoop_completes (n : ℕ) :
    ∀ (ob : Orderbook) (taker : Order) (trades : List Trade) (fuel : ℕ),
      ob.ordersById.length = n →
      n + 2 ≤ fuel →
      Inv ob → Healthy ob →
      taker.isClosed = false →
      0 < taker.remainingAmount →
      sufficientLiquidity taker ob →
      ∃ trades' ob' tk,
        matchLoop fuel ob taker trades = .ok trades' ob' tk ∧
          tk.remainingIsZero = true ∧
          tk.id = taker.id ∧
          tk.isLimitGtc = taker.isLimitGtc ∧
          tk.isImmediateOrCancel = taker.isImmediateOrCancel ∧
          ∀ k ∈ ob'.allIds, k ∈ ob.allIds := by
  induction n using Nat.strong_induction_on with
  | h n ih =>
  intro ob taker trades fuel hlen hfuel hInv hH htc hr hsl
  have hent : canFillEntries taker ob ≠ [] := by
    intro h
    rw [sufficientLiquidity, h] at hsl
    simp only [List.map_nil, List.sum_nil] at hsl
    exact absurd hr (not_lt.mpr hsl)
  obtain ⟨maker, rest, hio⟩ :
      ∃ maker rest, ob.iterOrders taker.side.opposite = maker :: rest := by
    cases hioc : ob.iterOrders taker.side.opposite with
    | nil =>
      exfalso
      apply hent
      rw [canFillEntries, hioc]
      rfl
    | cons a b => exact ⟨a, b, rfl⟩
  have hmt : (maker.matches taker).toBool = true := by
    by_contra hm
    rw [Bool.not_eq_true] at hm
    apply hent
    rw [canFillEntries, hio, List.takeWhile_cons]
    simp [hm]
  have hmok : maker.matches taker = .ok () := except_unit_toBool_true _ hmt
  have hentEq : canFillEntries taker ob =
      (maker.unitPrice, maker.remaining) ::
        (rest.takeWhile (fun m => (m.matches taker).toBool)).map
          (fun m => (m.unitPrice, m.remaining)) := by
    rw [canFillEntries, hio, List.takeWhile_cons]
    simp [hmt]
  rcases iterOrders_mem_healthy ob _ hH maker (by rw [hio]; simp) with
    ⟨hmc, hmrem, hmp⟩
  rcases iterOrders_cons_elim ob _ hInv maker rest hio with
    ⟨tail, hiter, hmget, hrest⟩
  have hpeek : ob.peek taker.side.opposite = some (some maker) := by
    rw [orderbook_peek_eq ob _ hInv, hio]
    rfl
  have hex := exchangedQuantity_pos maker taker hmp hmrem hr
  have htn := tryNew_ok_of maker taker hmok hex hmp
  obtain ⟨f, rfl⟩ : ∃ f, fuel = f + 1 := ⟨fuel - 1, by omega⟩
  have hncl : ¬ taker.isClosed = true := by simp [htc]
  rw [matchLoop_succ, if_neg hncl]
  simp only [hpeek, htn]
  by_cases hclosed :
      (maker.fillUnchecked (exchangedQuantity maker taker)).isClosed = true
  · rw [if_pos hclosed]
    have hmrz : maker.remaining - exchangedQuantity maker taker = 0 := by
      have h1 := limit_fillUnchecked_isClosed maker
        (exchangedQuantity maker taker)
      rw [hclosed, limit_fillUnchecked_remaining] at h1
      exact of_decide_eq_true h1.symm
    have hexm : exchangedQuantity maker taker = maker.remaining :=
      (sub_eq_zero.mp hmrz).symm
    have hget₁ : OrdersById.get (ob.writeBack
          (maker.fillUnchecked (exchangedQuantity maker taker))).ordersById
          (maker.fillUnchecked (exchangedQuantity maker taker)).id =
        some (maker.fillUnchecked (exchangedQuantity maker taker)) :=
      orderbook_writeBack_get_self ob _ maker
        (by rw [limit_fillUnchecked_id]; exact hmget)
    have hInv₁ : Inv (ob.writeBack
        (maker.fillUnchecked (exchangedQuantity maker taker))) :=
      inv_writeBack ob maker _ hInv
        (by rw [limit_fillUnchecked_id]; exact hmget)
        (limit_fillUnchecked_side _ _) (limit_fillUnchecked_unitPrice _ _)
    rcases orderbook_remove_spec _ _ _ hInv₁ hget₁ with
      ⟨ob₂, hrm, hInv₂, hgetnone, hgetne, hlen₂, hsideo, hremoveId⟩
    simp only [hrm]
    have hsub₂ : ∀ k ∈ ob₂.allIds, k ∈ ob.allIds := by
      intro k hk
      have h1 := orderbook_remove_allIds_sub _ ob₂ _ hsideo hremoveId k hk
      rw [orderbook_writeBack_allIds] at h1
      exact h1
    have hms : maker.side = taker.side.opposite := by
      rcases iter_mem_entry ob.ordersBySide taker.side.opposite maker.id
        (by rw [hiter]; simp) with ⟨e, he, hk⟩
      rcases hInv.placed _ e he maker.id hk with ⟨w, hw, hwside, _⟩
      rw [hmget] at hw
      have hmw := Option.some.inj hw
      subst hmw
      exact hwside
    rcases hInv.located maker.id maker hmget with ⟨_, hlocmem⟩
    rw [limit_fillUnchecked_side, limit_fillUnchecked_unitPrice,
      limit_fillUnchecked_id, orderbook_writeBack_side] at hremoveId
    have hiter₂ : ob₂.ordersBySide.iter maker.side = tail :=
      removeId_iter_tail ob ob₂ maker.side maker.unitPrice maker.id tail
        hInv (by rw [hms]; exact hiter) hlocmem hremoveId
    have hH₂ : Healthy ob₂ := by
      intro k o hko
      have hkne : k ≠
          (maker.fillUnchecked (exchangedQuantity maker taker)).id := by
        intro hkk
        rw [hkk, hgetnone] at hko
        exact Option.noConfusion hko
      rw [hgetne k hkne] at hko
      rw [orderbook_writeBack_get_ne ob _ k hkne] at hko
      exact hH k o hko
    have hlen₂' : ob₂.ordersById.length < n := by
      rw [orderbook_writeBack_length] at hlen₂
      omega
    have hkey : (taker.fillUnchecked (exchangedQuantity maker taker)
          maker.unitPrice).remainingAmount =
        taker.remainingAmount -
          availSize taker (maker.unitPrice, maker.remaining) ∧
        availSize taker (maker.unitPrice, maker.remaining) ≤
          taker.remainingAmount := by
      cases hrem : taker.remaining with
      | left funds =>
        have hfp : taker.isFundsPriced = true :=
          (order_remaining_left_iff taker).mpr ⟨funds, hrem⟩
        have hra := order_remainingAmount_left taker funds hrem
        have h2 := order_fillUnchecked_remaining_left taker
          (exchangedQuantity maker taker) maker.unitPrice funds hrem
        have hra' := order_remainingAmount_left _ _ h2
        have hqle : maker.remaining ≤ funds / maker.unitPrice := by
          have hq := exchangedQuantity_eq_funds maker taker funds hrem
          rw [hexm] at hq
          exact min_eq_right_iff.mp hq.symm
        have hple : maker.remaining * maker.unitPrice ≤ funds := by
          calc maker.remaining * maker.unitPrice
              ≤ (funds / maker.unitPrice) * maker.unitPrice :=
                mul_le_mul_of_nonneg_right hqle (le_of_lt hmp)
            _ = funds := div_mul_cancel₀ funds (ne_of_gt hmp)
        have hav : availSize taker (maker.unitPrice, maker.remaining) =
            maker.unitPrice * maker.remaining := by
          rw [availSize, hfp]
          simp
        constructor
        · rw [hra', hra, hav, hexm]
          ring
        · rw [hav, hra]
          calc maker.unitPrice * maker.remaining
              = maker.remaining * maker.unitPrice := mul_comm _ _
            _ ≤ funds := hple
      | right qty =>
        have hfp : taker.isFundsPriced = false := by
          by_contra hcon
          rw [Bool.not_eq_false] at hcon
          rcases (order_remaining_left_iff taker).mp hcon with ⟨g, hg⟩
          rw [hrem] at hg
          exact Either.noConfusion hg
        have hra := order_remainingAmount_right taker qty hrem
        have h2 := order_fillUnchecked_remaining_right taker
          (exchangedQuantity maker taker) maker.unitPrice qty hrem
        have hra' := order_remainingAmount_right _ _ h2
        have hqle : maker.remaining ≤ qty := by
          have hq := exchangedQuantity_eq_qty maker taker qty hrem
          rw [hexm] at hq
          exact min_eq_right_iff.mp hq.symm
        have hav : availSize taker (maker.unitPrice, maker.remaining) =
            maker.remaining := by
          rw [availSize, hfp]
          simp
        constructor
        · rw [hra', hra, hav, hexm]
        · rw [hav, hra]
          exact hqle
    rcases hkey with ⟨hr', havle⟩
    by_cases hz : (taker.fillUnchecked (exchangedQuantity maker taker)
        maker.unitPrice).remainingAmount = 0
    · have htz : (taker.fillUnchecked (exchangedQuantity maker taker)
          maker.unitPrice).remainingIsZero = true :=
        (order_remainingIsZero_iff _).mpr hz
      have htc' : (taker.fillUnchecked (exchangedQuantity maker taker)
          maker.unitPrice).isClosed = true := by
        rw [order_fillUnchecked_isClosed]
        exact htz
      obtain ⟨g, rfl⟩ : ∃ g, f = g + 1 := ⟨f - 1, by omega⟩
      refine ⟨trades ++ [⟨taker.id, maker.id, exchangedQuantity maker taker,
          maker.unitPrice, exchangedQuantity maker taker * maker.unitPrice⟩],
        ob₂, taker.fillUnchecked (exchangedQuantity maker taker)
          maker.unitPrice, ?_, htz, order_fillUnchecked_id _ _ _,
        order_fillUnchecked_isLimitGtc _ _ _,
        order_fillUnchecked_isImmediateOrCancel _ _ _, hsub₂⟩
      rw [matchLoop_succ, if_pos htc']
    · have htz : (taker.fillUnchecked (exchangedQuantity maker taker)
          maker.unitPrice).remainingIsZero = false := by
        cases hb : (taker.fillUnchecked (exchangedQuantity maker taker)
            maker.unitPrice).remainingIsZero
        · rfl
        · exact absurd ((order_remainingIsZero_iff _).mp hb) hz
      have htc' : (taker.fillUnchecked (exchangedQuantity maker taker)
          maker.unitPrice).isClosed = false := by
        rw [order_fillUnchecked_isClosed]
        exact htz
      have hrpos : 0 < (taker.fillUnchecked (exchangedQuantity maker taker)
          maker.unitPrice).remainingAmount := by
        rcases (sub_nonneg.mpr havle).lt_or_eq with h | h
        · rw [hr']
          exact h
        · exfalso
          apply hz
          rw [hr']
          exact h.symm
      have hioc₂ : ob₂.iterOrders taker.side.opposite = rest := by
        rw [Orderbook.iterOrders, ← hms, hiter₂, hrest]
        apply list_filterMap_congr
        intro k hk
        have hkne : k ≠ maker.id := by
          have hnd := iter_nodup ob hInv taker.side.opposite
          rw [hiter, List.nodup_cons] at hnd
          intro hkk
          rw [hkk] at hk
          exact hnd.1 hk
        have hkne' : k ≠
            (maker.fillUnchecked (exchangedQuantity maker taker)).id := by
          rw [limit_fillUnchecked_id]
          exact hkne
        show OrdersById.get ob₂.ordersById k = OrdersById.get ob.ordersById k
        rw [hgetne k hkne']
        exact orderbook_writeBack_get_ne ob _ k hkne'
      have hcong : (fun m : LimitOrder =>
            (m.matches (taker.fillUnchecked (exchangedQuantity maker taker)
              maker.unitPrice)).toBool) =
          (fun m : LimitOrder => (m.matches taker).toBool) := by
        funext m
        rw [limit_matches_congr m taker _ (by rw [htc', htc])
          (order_fillUnchecked_limitPrice _ _ _)
          (order_fillUnchecked_side _ _ _)]
      have hside' : (taker.fillUnchecked (exchangedQuantity maker taker)
          maker.unitPrice).side = taker.side := order_fillUnchecked_side _ _ _
      have hent₂ : canFillEntries (taker.fillUnchecked
            (exchangedQuantity maker taker) maker.unitPrice) ob₂ =
          (rest.takeWhile (fun m => (m.matches taker).toBool)).map
            (fun m => (m.unitPrice, m.remaining)) := by
        rw [canFillEntries, hside', hioc₂, hcong]
      have hfp' : (taker.fillUnchecked (exchangedQuantity maker taker)
            maker.unitPrice).isFundsPriced = taker.isFundsPriced :=
        order_fillUnchecked_isFundsPriced _ _ _
      have havail : availSize (taker.fillUnchecked
            (exchangedQuantity maker taker) maker.unitPrice) =
          availSize taker := by
        funext e
        rw [availSize, availSize, hfp']
      have hsl₂ : sufficientLiquidity (taker.fillUnchecked
          (exchangedQuantity maker taker) maker.unitPrice) ob₂ := by
        rw [sufficientLiquidity, hent₂, havail, hr']
        rw [sufficientLiquidity, hentEq] at hsl
        simp only [List.map_cons, List.sum_cons] at hsl
        linarith
      rcases ih ob₂.ordersById.length hlen₂' ob₂
        (taker.fillUnchecked (exchangedQuantity maker taker) maker.unitPrice)
        (trades ++ [⟨taker.id, maker.id, exchangedQuantity maker taker,
          maker.unitPrice, exchangedQuantity maker taker * maker.unitPrice⟩])
        f rfl (by omega) hInv₂ hH₂ htc' hrpos hsl₂ with
        ⟨trades₃, ob₃, tk₃, hml₃, hz₃, hid₃, hgtc₃, hioc₃, hsub₃⟩
      refine ⟨trades₃, ob₃, tk₃, hml₃, hz₃, ?_, ?_, ?_, ?_⟩
      · rw [hid₃, order_fillUnchecked_id]
      · rw [hgtc₃, order_fillUnchecked_isLimitGtc]
      · rw [hioc₃, order_fillUnchecked_isImmediateOrCancel]
      · intro k hk
        exact hsub₂ k (hsub₃ k hk)
  · rw [if_neg hclosed]
    have hmrnz : maker.remaining - exchangedQuantity maker taker ≠ 0 := by
      intro hcon
      apply hclosed
      rw [limit_fillUnchecked_isClosed, limit_fillUnchecked_remaining]
      simp [hcon]
    have hz' : (taker.fillUnchecked (exchangedQuantity maker taker)
        maker.unitPrice).remainingAmount = 0 := by
      cases hrem : taker.remaining with
      | left funds =>
        have h2 := order_fillUnchecked_remaining_left taker
          (exchangedQuantity maker taker) maker.unitPrice funds hrem
        rw [order_remainingAmount_left _ _ h2]
        have hq := exchangedQuantity_eq_funds maker taker funds hrem
        have hEe : exchangedQuantity maker taker =
            funds / maker.unitPrice := by
          rcases min_choice (funds / maker.unitPrice) maker.remaining with
            h | h
          · rw [hq, h]
          · exfalso
            apply hmrnz
            rw [hq, h]
            ring
        rw [hEe, div_mul_cancel₀ funds (ne_of_gt hmp), sub_self]
      | right qty =>
        have h2 := order_fillUnchecked_remaining_right taker
          (exchangedQuantity maker taker) maker.unitPrice qty hrem
        rw [order_remainingAmount_right _ _ h2]
        have hq := exchangedQuantity_eq_qty maker taker qty hrem
        have hEe : exchangedQuantity maker taker = qty := by
          rcases min_choice qty maker.remaining with h | h
          · rw [hq, h]
          · exfalso
            apply hmrnz
            rw [hq, h]
            ring
        rw [hEe, sub_self]
    have htz : (taker.fillUnchecked (exchangedQuantity maker taker)
        maker.unitPrice).remainingIsZero = true :=
      (order_remainingIsZero_iff _).mpr hz'
    have htc' : (taker.fillUnchecked (exchangedQuantity maker taker)
        maker.unitPrice).isClosed = true := by
      rw [order_fillUnchecked_isClosed]
      exact htz
    obtain ⟨g, rfl⟩ : ∃ g, f = g + 1 := ⟨f - 1, by omega⟩
    refine ⟨trades ++ [⟨taker.id, maker.id, exchangedQuantity maker taker,
        maker.unitPrice, exchangedQuantity maker taker * maker.unitPrice⟩],
      ob.writeBack (maker.fillUnchecked (exchangedQuantity maker taker)),
      taker.fillUnchecked (exchangedQuantity maker taker) maker.unitPrice,
      ?_, htz, order_fillUnchecked_id _ _ _,
      order_fillUnchecked_isLimitGtc _ _ _,
      order_fillUnchecked_isImmediateOrCancel _ _ _, ?_⟩
    · rw [matchLoop_succ, if_pos htc']
    · intro k hk
      rw [orderbook_writeBack_allIds] at hk
      exact hk

/-- C6: over a well-formed book (invariant and healthy resting orders)
and for an open fill-or-kill taker with positive remaining amount, the
FillOrKill pre-match policy leaves the taker unchanged exactly when the
opposite side holds sufficient crossing liquidity — walked in priority
order, cut at the first maker that does not match, sized by
price × available quantity for funds-priced takers and by the plain
available quantity otherwise; and whenever FillOrKill does not cancel
the taker, matching completes it (its remaining reaches zero) and never
inserts it into the book (the final book's resting ids all come from
the initial book). -/
theorem c6_fill_or_kill (ob : Orderbook) (taker : Order)
    (hInv : Inv ob) (hH : Healthy ob)
    (hfok : taker.isFillOrKill = true)
    (hopen : taker.status = .opened)
    (hr : 0 < taker.remainingAmount) :
    (FillOrKill.enforce taker ob = taker ↔ sufficientLiquidity taker ob) ∧
      (FillOrKill.enforce taker ob = taker →
        ∃ trades ob' tk,
          MatchingAlgo.matching ob taker = .ok trades ob' tk ∧
            tk.remainingIsZero = true ∧ tk.id = taker.id ∧
            ∀ k ∈ ob'.allIds, k ∈ ob.allIds) := by
  have htc : taker.isClosed = false := by
    rw [Order.isClosed, hopen]
  have hcf := fok_canFill_iff taker ob hH hr
  have hcstat : taker.cancel.status = OrderStatus.cancelled := by
    rw [Order.cancel, hopen]
  have hcneq : taker.cancel ≠ taker := by
    intro heq
    rw [heq, hopen] at hcstat
    exact OrderStatus.noConfusion hcstat
  have hiff : FillOrKill.enforce taker ob = taker ↔
      sufficientLiquidity taker ob := by
    rw [FillOrKill.enforce]
    constructor
    · intro h
      by_cases hcfb : FillOrKill.canFill taker ob = true
      · exact hcf.mp hcfb
      · rw [Bool.not_eq_true] at hcfb
        rw [hfok, hcfb] at h
        simp at h
        exact absurd h hcneq
    · intro h
      rw [hfok, hcf.mpr h]
      simp
  refine ⟨hiff, ?_⟩
  intro henf
  have hsl : sufficientLiquidity taker ob := hiff.mp henf
  have hpo : taker.isPostOnly = false := fok_not_postOnly taker hfok
  have hpoe : PostOnly.enforce taker ob = taker := by
    rw [PostOnly.enforce, hpo]
    simp
  rcases matchLoop_completes ob.ordersById.length ob taker []
    (ob.ordersById.length + 2) rfl (le_refl _) hInv hH htc hr hsl with
    ⟨trades', ob', tk, hml, hz, hid, hgtc, hioc, hsub⟩
  have hgtc4 : (ImmediateOrCancel.enforce tk).isLimitGtc = false := by
    rw [ImmediateOrCancel.enforce]
    by_cases hi : tk.isImmediateOrCancel = true
    · rw [if_pos hi, order_cancel_isLimitGtc, hgtc]
      exact fok_not_limitGtc taker hfok
    · rw [if_neg hi, hgtc]
      exact fok_not_limitGtc taker hfok
  have htf : LimitOrder.tryFrom (ImmediateOrCancel.enforce tk) =
      .error .incompatible := limit_tryFrom_err _ hgtc4
  refine ⟨trades', ob', ImmediateOrCancel.enforce tk, ?_, ?_, ?_, hsub⟩
  · rw [MatchingAlgo.matching]
    simp only [henf, hpoe, hml, htf]
  · rw [ImmediateOrCancel.enforce]
    by_cases hi : tk.isImmediateOrCancel = true
    · rw [if_pos hi, order_cancel_remainingIsZero]
      exact hz
    · rw [if_neg hi]
      exact hz
  · rw [ImmediateOrCancel.enforce]
    by_cases hi : tk.isImmediateOrCancel = true
    · rw [if_pos hi, order_cancel_id]
      exact hid
    · rw [if_neg hi]
      exact hid

/-- Witness for c6_fill_or_kill: the book holding the single open ask
(price 10, quantity 10) and the all-or-none market bid for quantity 10
satisfy every hypothesis of the theorem. -/
theorem c6_fill_or_kill_witness :
    Inv bookAsk10 ∧ Healthy bookAsk10 ∧
      fokBid10.isFillOrKill = true ∧ fokBid10.status = .opened ∧
      0 < fokBid10.remainingAmount ∧
      ((FillOrKill.enforce fokBid10 bookAsk10 = fokBid10 ↔
          sufficientLiquidity fokBid10 bookAsk10) ∧
        (FillOrKill.enforce fokBid10 bookAsk10 = fokBid10 →
          ∃ trades ob' tk,
            MatchingAlgo.matching bookAsk10 fokBid10 = .ok trades ob' tk ∧
              tk.remainingIsZero = true ∧ tk.id = fokBid10.id ∧
              ∀ k ∈ ob'.allIds, k ∈ bookAsk10.allIds)) := by
  have hInv : Inv bookAsk10 :=
    inv_insert Orderbook.new ⟨1, .ask, 10, false, 10, 0, .opened⟩
      inv_empty rfl
  have hH : Healthy bookAsk10 := by
    intro oid o h
    have hids : bookAsk10.ordersById =
        [(1, ⟨1, .ask, 10, false, 10, 0, .opened⟩)] := rfl
    rw [hids, ordersById_get_cons] at h
    split at h
    · have ho : (⟨1, .ask, 10, false, 10, 0, .opened⟩ : LimitOrder) = o :=
        Option.some.inj h
      subst ho
      refine ⟨rfl, ?_, ?_⟩
      · show (0 : ℚ) < 10 - 0
        norm_num
      · show (0 : ℚ) < 10
        norm_num
    · exact Option.noConfusion h
  have h1 : fokBid10.isFillOrKill = true := rfl
  have h2 : fokBid10.status = .opened := rfl
  have h3 : 0 < fokBid10.remainingAmount := by
    show (0 : ℚ) < 10 - 0
    norm_num
  exact ⟨hInv, hH, h1, h2, h3,
    c6_fill_or_kill bookAsk10 fokBid10 hInv hH h1 h2 h3⟩

end ExchangeRs
